import Mathlib

/-!
# Verification of the firefly-narrative session↔commit linker and related components

Shallow embedding of the Rust sources under `src/src-tauri/src/`:

* `linking.rs`      — temporal/file-overlap scoring, secret scan, link selection;
* `link_commands.rs` — the file-based import flow (`import_session_file`);
* `atlas/chunking.rs` — deterministic chunk derivation (`derive_chunks`);
* `attribution/session_stats.rs` — contribution-stats fallback;
* `story_anchors/sessions_notes_io.rs`, `attribution/commands.rs`,
  `story_anchors/refs.rs` — story-anchor note import/export ref precedence.

Modelling conventions:

* Rust `f64` scores are modelled as `ℚ`.  Every comparison appearing in a
  theorem below is at a distance far above `f64` rounding error, and the
  concrete confidences used (`1.0`, `0.6·t + 0.4·j` at small rationals) are
  exact in both models.
* RFC3339 timestamps are modelled by their parse result: `Option Int`
  (seconds since epoch); `none` models a string rejected by
  `DateTime::parse_from_rfc3339`.
* Rust `String` text is modelled as `List Char`.  `char::is_alphanumeric`
  and `str::to_lowercase` are Unicode in Rust; the model uses the ASCII
  versions (`Char.isAlphanum`, `Char.toLower`), which agree on every input
  appearing in the claims.
* chrono's `Duration::num_minutes` truncates toward zero; composed with
  `.abs()` this equals `Int.natAbs` followed by natural division by 60,
  which is how minute distances are modelled.
-/

namespace Narrative

/-- Rust `Result<A, E>`. -/
inductive RResult (α : Type) (ε : Type) where
  | ok (val : α)
  | err (e : ε)
deriving DecidableEq, Repr

/-! ## linking.rs — data types -/

/-- `linking.rs` `SessionMessageRole`. -/
inductive SessionMessageRole where
  | user
  | assistant
deriving DecidableEq, Repr

/-- `linking.rs` `SessionTool`. -/
inductive SessionTool where
  | claudeCode
  | codex
  | unknown
deriving DecidableEq, Repr

/-- `impl Display for SessionTool`. -/
def SessionTool.toDisplay : SessionTool → String
  | .claudeCode => "claude-code"
  | .codex => "codex"
  | .unknown => "unknown"

/-- `linking.rs` `SessionMessage`; `text` is the message body as chars. -/
structure SessionMessage where
  id : String
  role : SessionMessageRole
  text : List Char
  files : Option (List String)
deriving DecidableEq, Repr

/-- `linking.rs` `SessionExcerpt`.  `imported_at` is the RFC3339 parse
result of `imported_at_iso` in seconds since epoch (`none` = unparseable). -/
structure SessionExcerpt where
  id : String
  tool : SessionTool
  duration_min : Option Int
  imported_at : Option Int
  messages : List SessionMessage
deriving DecidableEq, Repr

/-- `linking.rs` `GitCommit`; `authored_at` is the RFC3339 parse result. -/
structure GitCommit where
  sha : String
  authored_at : Option Int
  message : String
  files : List String
deriving DecidableEq, Repr

/-- `linking.rs` `LinkResult`. -/
structure LinkResult where
  commit_sha : String
  confidence : ℚ
  auto_linked : Bool
  temporal_score : ℚ
  file_score : ℚ
deriving DecidableEq, Repr

/-- `linking.rs` `UnlinkedReason`. -/
inductive UnlinkedReason where
  | noCommitsInTimeWindow
  | lowConfidence
  | parseError (msg : String)
  | secretDetected (kinds : List String)
deriving DecidableEq, Repr

/-! ## linking.rs — scoring -/

/-- `MAX_SESSION_DURATION_MIN` (4 hours in minutes). -/
def MAX_SESSION_DURATION_MIN : Int := 240

/-- `TIME_WINDOW_TOLERANCE_MIN` (±4 hours). -/
def TIME_WINDOW_TOLERANCE_MIN : Int := 240

/-- `TEMPORAL_DECAY_MIN` (±5 minutes). -/
def TEMPORAL_DECAY_MIN : Nat := 5

/-- `CONFIDENCE_THRESHOLD` (0.65). -/
def CONFIDENCE_THRESHOLD : ℚ := 13/20

/-- `TEMPORAL_WEIGHT` (0.6). -/
def TEMPORAL_WEIGHT : ℚ := 3/5

/-- `FILE_OVERLAP_WEIGHT` (0.4). -/
def FILE_OVERLAP_WEIGHT : ℚ := 2/5

/-- Whole-minute distance between two instants (seconds):
`Duration::num_minutes().abs()` = truncate toward zero, then abs. -/
def minutesBetween (a b : Int) : Nat := (a - b).natAbs / 60

/-- `linking.rs` `score_temporal_overlap` (times in epoch seconds). -/
def score_temporal_overlap (session_end : Int) (session_duration_min : Int)
    (commit_time : Int) : ℚ :=
  let duration_min := min session_duration_min MAX_SESSION_DURATION_MIN
  let session_start := session_end - duration_min * 60
  if session_start ≤ commit_time ∧ commit_time ≤ session_end then 1
  else
    let distance_min : Nat :=
      if commit_time < session_start then minutesBetween session_start commit_time
      else minutesBetween commit_time session_end
    if distance_min ≤ TEMPORAL_DECAY_MIN then
      1 - (1/2) * ((distance_min : ℚ) / (TEMPORAL_DECAY_MIN : ℚ))
    else 0

/-- Order-preserving first-occurrence dedup (Rust `HashSet::insert` retain). -/
def dedupFirst : List String → List String :=
  go []
where
  go (seen : List String) : List String → List String
    | [] => []
    | x :: xs => if x ∈ seen then go seen xs else x :: go (x :: seen) xs

/-- `str::split` on a single separator character (keeps empty pieces). -/
def splitOnChar (sep : Char) : List Char → List (List Char) :=
  go []
where
  go (acc : List Char) : List Char → List (List Char)
    | [] => [acc.reverse]
    | c :: rest => if c = sep then acc.reverse :: go [] rest else go (c :: acc) rest

/-- `Vec::join` with a single separator character. -/
def joinWithChar (sep : Char) : List (List Char) → List Char
  | [] => []
  | [x] => x
  | x :: xs => x ++ sep :: joinWithChar sep xs

/-- `linking.rs` `normalize_path`, pure fallback branch.  The
`Path::canonicalize` branch consults the filesystem and only succeeds for
paths that exist on disk; the model takes the manual `.`/`..` resolution
the function falls back to. -/
def normalize_path (path : String) : String :=
  let normalized := path.toList.map (fun c => if c = '\\' then '/' else c)
  let parts := splitOnChar '/' normalized
  let result := parts.foldl
    (fun acc part =>
      if part.isEmpty ∨ part = ['.'] then acc
      else if part = ['.', '.'] then acc.dropLast
      else acc ++ [part])
    []
  if result.isEmpty then "" else String.mk (joinWithChar '/' result)

/-- `linking.rs` `score_file_overlap` (Jaccard similarity). The Rust
`HashSet`s are modelled as first-occurrence-deduped lists; only
cardinalities of the intersection and union are used. -/
def score_file_overlap (session_files commit_files : List String) : ℚ :=
  let session_set := dedupFirst ((session_files.map normalize_path).filter (· ≠ ""))
  let commit_set := dedupFirst ((commit_files.map normalize_path).filter (· ≠ ""))
  if session_set.isEmpty ∨ commit_set.isEmpty then 0
  else
    let inter := (session_set.filter (fun f => f ∈ commit_set)).length
    let union := (session_set.filter (fun f => f ∉ commit_set)).length + commit_set.length
    if union = 0 then 0 else (inter : ℚ) / (union : ℚ)

/-- `linking.rs` `calculate_link_confidence`. -/
def calculate_link_confidence (session_end : Int) (session_duration_min : Int)
    (commit : GitCommit) (session_files : List String) : Option LinkResult :=
  match commit.authored_at with
  | none => none
  | some commit_time =>
    let temporal_score := score_temporal_overlap session_end session_duration_min commit_time
    let file_score := score_file_overlap session_files commit.files
    let confidence := TEMPORAL_WEIGHT * temporal_score + FILE_OVERLAP_WEIGHT * file_score
    if CONFIDENCE_THRESHOLD ≤ confidence then
      some ⟨commit.sha, confidence, true, temporal_score, file_score⟩
    else none

/-! ## linking.rs — secret detection -/

/-- Names of the `SECRET_PATTERNS` entries, in order. -/
def SECRET_PATTERN_NAMES : List String :=
  ["base64-like", "sk- API key", "pk_ API key", "long random string (possible secret)"]

/-- The keyword list of `detect_secrets_impl`. -/
def SECRET_KEYWORDS : List String :=
  ["token", "secret", "api_key", "password", "private_key", "credentials"]

/-- Characters accepted inside a "long random string" word:
`c.is_alphanumeric() || c == '_' || c == '-'` (ASCII model). -/
def isSecretWordChar (c : Char) : Bool :=
  c.isAlphanum || c = '_' || c = '-'

/-- Boolean substring containment (`str::contains` on a literal needle). -/
def isInfixB (needle hay : List Char) : Bool := decide (needle <:+: hay)

/-- `str::split_whitespace`: split on whitespace, dropping empty pieces. -/
def splitWhitespace : List Char → List (List Char) :=
  go []
where
  go (acc : List Char) : List Char → List (List Char)
    | [] => if acc.isEmpty then [] else [acc.reverse]
    | c :: rest =>
      if c.isWhitespace then
        if acc.isEmpty then go [] rest else acc.reverse :: go [] rest
      else go (c :: acc) rest

/-- `linking.rs` `detect_secrets_impl` / `detect_secrets`.
Per pattern iteration the code pushes the pattern name whenever the text
contains `sk-` or `pk_`, then pushes one "long string" entry for the first
whitespace-delimited word of ≥ 32 word-characters. -/
def detect_secrets (text : List Char) : List String :=
  let text_lower := text.map Char.toLower
  let keywordHits :=
    (SECRET_KEYWORDS.filter (fun k => isInfixB k.toList text_lower)).map
      (fun k => "keyword: " ++ k)
  let prefixHit : Bool := isInfixB "sk-".toList text || isInfixB "pk_".toList text
  let longWord : Option (List Char) :=
    (splitWhitespace text).find? (fun w => 32 ≤ w.length && w.all isSecretWordChar)
  let perPattern := fun (name : String) =>
    (if prefixHit then [name] else []) ++
      (match longWord with
       | some w => ["long string: " ++ toString w.length ++ " chars"]
       | none => [])
  keywordHits ++ (SECRET_PATTERN_NAMES.map perPattern).flatten

/-- `linking.rs` `extract_session_files`: concatenate per-message file
lists, dedup keeping first occurrences. -/
def extract_session_files (messages : List SessionMessage) : List String :=
  dedupFirst ((messages.filterMap (·.files)).flatten)

/-- Secrets detected across all messages of a session, in message order. -/
def detect_session_secrets (messages : List SessionMessage) : List String :=
  messages.foldl (fun acc m => acc ++ detect_secrets m.text) []

/-! ## linking.rs — link_session_to_commits -/

/-- The `HashMap<String, &GitCommit>` built from candidates: later inserts
overwrite earlier ones, so lookup returns the last candidate with the sha. -/
def lastWithSha (candidates : List GitCommit) (sha : String) : Option GitCommit :=
  (candidates.filter (fun c => c.sha = sha)).getLast?

/-- One step of the candidate loop of `link_session_to_commits`:
keep `best`, or replace it by the freshly scored candidate per the
confidence-margin / timestamp-distance rule. -/
def linkLoopStep (session_end : Int) (session_duration_min : Int)
    (session_files : List String) (candidates : List GitCommit)
    (best : Option LinkResult) (commit : GitCommit) : Option LinkResult :=
  match calculate_link_confidence session_end session_duration_min commit session_files with
  | none => best
  | some result =>
    match best with
    | none => some result
    | some current_best =>
      let commit_time := commit.authored_at.getD 0
      let current_best_commit_time :=
        ((lastWithSha candidates current_best.commit_sha).bind (·.authored_at)).getD 0
      let new_distance := minutesBetween commit_time session_end
      let current_distance := minutesBetween current_best_commit_time session_end
      if current_best.confidence + 1/20 < result.confidence then some result
      else if |result.confidence - current_best.confidence| ≤ 1/20 ∧
          new_distance < current_distance then some result
      else some current_best

/-- `linking.rs` `link_session_to_commits`. -/
def link_session_to_commits (session : SessionExcerpt) (commits : List GitCommit) :
    RResult LinkResult UnlinkedReason :=
  match session.imported_at with
  | none => .err (.parseError "Invalid session timestamp")
  | some session_end =>
    let duration_min := session.duration_min.getD 30
    let detected_secrets := detect_session_secrets session.messages
    if detected_secrets.isEmpty = false then .err (.secretDetected detected_secrets)
    else
      let session_files := extract_session_files session.messages
      let window_start := session_end - TIME_WINDOW_TOLERANCE_MIN * 60
      let window_end := session_end + TIME_WINDOW_TOLERANCE_MIN * 60
      let candidates := commits.filter (fun c =>
        match c.authored_at with
        | some t => decide (window_start ≤ t ∧ t ≤ window_end)
        | none => false)
      if candidates.isEmpty then .err .noCommitsInTimeWindow
      else
        let best := candidates.foldl
          (linkLoopStep session_end duration_min session_files candidates) none
        match best with
        | some result => .ok result
        | none => .err .lowConfidence

/-- Invariant of the candidate loop of `link_session_to_commits`: the
accumulator is `none` only while no processed candidate passed the
threshold, and otherwise holds the scored result of a processed candidate
whose whole-minute distance to the session end is minimal among all
passing processed candidates. -/
def linkLoopInv (e dur : Int) (files : List String) (pr : List GitCommit) :
    Option LinkResult → Prop
  | none => ∀ c ∈ pr, calculate_link_confidence e dur c files = none
  | some r => ∃ c₀, c₀ ∈ pr ∧ c₀.sha = r.commit_sha ∧
      calculate_link_confidence e dur c₀ files = some r ∧
      ∀ c ∈ pr, ∀ rc, calculate_link_confidence e dur c files = some rc →
        minutesBetween (c₀.authored_at.getD 0) e ≤ minutesBetween (c.authored_at.getD 0) e

/-- Modelled from the spec: `needs_review = (confidence < 0.7)` at link
creation.  The computation lives in the richer linking module
(`link_session_to_commits_with_options` / its `LinkResult.needs_review`
field), which is referenced by `import/commands.rs` but absent from the
sources provided; spec §3 and §4.E fix the rule. -/
def needs_review (confidence : ℚ) : Bool := confidence < 7/10

/-! ## link_commands.rs — file-based import flow -/

/-- Failure modes of `link_commands.rs` `import_session_file`.  The Rust
function returns `Err(String)`; the "Secrets detected in session: …"
message embeds the joined kind list, modelled structurally. -/
inductive ImportLinkError where
  | secretDetected (kinds : List String)
  | linkFailed (reason : UnlinkedReason)
deriving DecidableEq, Repr

/-- `link_commands.rs` `import_session_file`, from the secret-scan step on
(path validation, file reading and JSON decoding are I/O and precede the
modelled fragment).  Scans every message with `detect_secrets`; on any hit
it fails before the linking algorithm (and hence before the `session_links`
insert) runs. -/
def import_session_file_flow (session : SessionExcerpt) (commits : List GitCommit) :
    RResult LinkResult ImportLinkError :=
  let detected_secrets := (session.messages.map (fun m => detect_secrets m.text)).flatten
  if detected_secrets.isEmpty = false then .err (.secretDetected detected_secrets)
  else
    match link_session_to_commits session commits with
    | .ok r => .ok r
    | .err e => .err (.linkFailed e)

/-! ## atlas/chunking.rs — deterministic chunk derivation

Text is `List Char`; list length models both `str::len` (used for packing)
and `chars().count()` (used for truncation), which coincide on ASCII.
The source is double-escaped throughout: role tags end in the literal two
characters backslash-`n`, `normalize_text` replaces the literal
backslash-`r`-backslash-`n`, and `finalize_chunk` joins pieces with the
literal four-character backslash-`n`-backslash-`n` while the loop budgets
only 2 per separator — so chunk texts can exceed the 4000 budget.
`chunk_uid` (a sha256 digest of repo/session/index/text) is not modelled:
no claim refers to it. -/

/-- `import/parser.rs` `TraceMessage` (timestamps dropped: `derive_chunks`
never reads them).  `ToolCall.input` models `Option<serde_json::Value>`
after the `is_null` filter and `to_string`: `none` for an absent or null
value, `some s` for the serialized non-null value. -/
inductive TraceMessage where
  | user (text : List Char)
  | assistant (text : List Char)
  | thinking (text : List Char)
  | plan (text : List Char)
  | toolCall (tool_name : List Char) (input : Option (List Char))
deriving DecidableEq, Repr

/-- `CHUNK_TEXT_MAX_CHARS`. -/
def CHUNK_TEXT_MAX_CHARS : Nat := 4000

/-- `MAX_CHUNKS_PER_SESSION`. -/
def MAX_CHUNKS_PER_SESSION : Nat := 200

/-- `atlas/chunking.rs` `DerivedChunk` minus the unmodelled `chunk_uid`. -/
structure DerivedChunk where
  chunk_index : Nat
  start_message_index : Nat
  end_message_index : Nat
  role_mask : String
  text : List Char
deriving DecidableEq, Repr

/-- `atlas/chunking.rs` `DeriveSummary`. -/
structure DeriveSummary where
  chunks : List DerivedChunk
  truncated : Bool
deriving DecidableEq, Repr

/-- `atlas/chunking.rs` `message_to_index_text`: role tag plus tagged text.
The source writes `format!("[USER]\\n{text}")` — the tag ends in a
double-escaped literal backslash-`n` (two characters, no real newline) —
and likewise for the other role tags and the tool-call separator. -/
def message_to_index_text : TraceMessage → String × List Char
  | .user text => ("user", "[USER]\\n".toList ++ text)
  | .assistant text => ("assistant", "[ASSISTANT]\\n".toList ++ text)
  | .thinking text => ("thinking", "[THINKING]\\n".toList ++ text)
  | .plan text => ("plan", "[PLAN]\\n".toList ++ text)
  | .toolCall tool_name input =>
    let input_text := input.getD []
    let joined :=
      if input_text.isEmpty then "[TOOL_CALL]\\n".toList ++ tool_name
      else "[TOOL_CALL]\\n".toList ++ tool_name ++ '\\' :: 'n' :: input_text
    ("tool_call", joined)

/-- `normalize_text`'s replacement: the source is double-escaped
(`input.replace("\\r\\n", "\\n")`), so it replaces the literal
four-character sequence backslash-`r`-backslash-`n` by the literal
two-character backslash-`n` — no real CR/LF is involved.
Non-overlapping, left-to-right. -/
def replaceCrlf : List Char → List Char
  | [] => []
  | [c] => [c]
  | [c, c2] => [c, c2]
  | [c, c2, c3] => [c, c2, c3]
  | c :: c2 :: c3 :: c4 :: rest =>
    if c = '\\' ∧ c2 = 'r' ∧ c3 = '\\' ∧ c4 = 'n' then
      '\\' :: 'n' :: replaceCrlf rest
    else c :: replaceCrlf (c2 :: c3 :: c4 :: rest)

/-- `str::trim`. -/
def trimChars (l : List Char) : List Char :=
  ((l.dropWhile Char.isWhitespace).reverse.dropWhile Char.isWhitespace).reverse

/-- `atlas/chunking.rs` `normalize_text`. -/
def normalize_text (input : List Char) : List Char :=
  trimChars (replaceCrlf input)

/-- `atlas/chunking.rs` `truncate_chars`. -/
def truncate_chars (input : List Char) (max_chars : Nat) : List Char :=
  if input.length ≤ max_chars then input else input.take max_chars

/-- Insertion into a sorted string list without duplicates (`BTreeSet`). -/
def insertSorted (s : String) : List String → List String
  | [] => [s]
  | x :: xs =>
    match compare s x with
    | .lt => s :: x :: xs
    | .eq => x :: xs
    | .gt => x :: insertSorted s xs

/-- `BTreeSet` built from a role list: sorted, duplicate-free. -/
def sortedUniqueRoles (roles : List String) : List String :=
  roles.foldl (fun acc r => insertSorted r acc) []

/-- One accumulated message of the in-progress chunk:
`(message index, text, role)`. -/
abbrev ChunkItem := Nat × List Char × String

/-- Chunk text built from `items`: pieces joined by the literal
four-character separator that `finalize_chunk` pushes — the source is
double-escaped (`text.push_str("\\n\\n")`), so the separator is
backslash-`n`-backslash-`n`, four characters. -/
def joinPieces : List ChunkItem → List Char
  | [] => []
  | [(_, piece, _)] => piece
  | (_, piece, _) :: rest =>
    piece ++ '\\' :: 'n' :: '\\' :: 'n' :: joinPieces rest

/-- The packing cost `derive_chunks` charges for a block: piece lengths
plus only 2 per separator, although the separator actually pushed is 4
characters — so a finished chunk's text exceeds its budget by 2 for every
separator it contains. -/
def pieceBudget : List ChunkItem → Nat
  | [] => 0
  | [(_, piece, _)] => piece.length
  | (_, piece, _) :: rest => piece.length + 2 + pieceBudget rest

/-- `atlas/chunking.rs` `finalize_chunk` (minus `chunk_uid`). -/
def finalize_chunk (chunk_index : Nat) (items : List ChunkItem) : DerivedChunk :=
  let start_message_index := ((items.head?).map (·.1)).getD 0
  let end_message_index := ((items.getLast?).map (·.1)).getD start_message_index
  let role_mask := String.intercalate "," (sortedUniqueRoles (items.map (·.2.2)))
  { chunk_index := chunk_index
    start_message_index := start_message_index
    end_message_index := end_message_index
    role_mask := role_mask
    text := joinPieces items }

/-- Loop state of `derive_chunks`. -/
structure ChunkState where
  out : List DerivedChunk
  truncated : Bool
  current : List ChunkItem
  currentLen : Nat
deriving Repr

/-- The message loop of `derive_chunks` over enumerated messages.  A `break`
(chunk budget exhausted while a new chunk is needed) stops the traversal
with `truncated := true`. -/
def deriveLoop : List (Nat × TraceMessage) → ChunkState → ChunkState
  | [], st => st
  | (idx, msg) :: rest, st =>
    let text₀ := normalize_text (message_to_index_text msg).2
    if text₀.isEmpty then deriveLoop rest st
    else
      let text := truncate_chars text₀ CHUNK_TEXT_MAX_CHARS
      let role := (message_to_index_text msg).1
      let additional := if st.current.isEmpty then text.length else 2 + text.length
      if st.current.isEmpty = false ∧ CHUNK_TEXT_MAX_CHARS < st.currentLen + additional then
        if MAX_CHUNKS_PER_SESSION ≤ st.out.length then { st with truncated := true }
        else
          deriveLoop rest
            { out := st.out ++ [finalize_chunk st.out.length st.current]
              truncated := st.truncated
              current := [(idx, text, role)]
              currentLen := additional }
      else
        deriveLoop rest
          { st with
            current := st.current ++ [(idx, text, role)]
            currentLen := st.currentLen + additional }

/-- `atlas/chunking.rs` `derive_chunks`.  `repo_id` and `session_id` only
feed the unmodelled `chunk_uid`. -/
def derive_chunks (_repo_id : Int) (_session_id : String)
    (messages : List TraceMessage) : DeriveSummary :=
  let st := deriveLoop messages.enum ⟨[], false, [], 0⟩
  if st.current.isEmpty = false ∧ st.out.length < MAX_CHUNKS_PER_SESSION then
    ⟨st.out ++ [finalize_chunk st.out.length st.current], st.truncated⟩
  else if st.current.isEmpty = false then ⟨st.out, true⟩
  else ⟨st.out, st.truncated⟩

/-- The indices, among enumerated messages, whose normalized text is
non-empty — those that participate in chunks. -/
def includedPairs (rem : List (Nat × TraceMessage)) : List Nat :=
  (rem.filter
    (fun p => (normalize_text (message_to_index_text p.2).2).isEmpty = false)).map (·.1)

/-- The indices of messages with non-empty normalized text. -/
def includedIndices (messages : List TraceMessage) : List Nat :=
  includedPairs messages.enum

/-- The message indices of the accumulated chunk items. -/
def chunkItemsIdxs (items : List ChunkItem) : List Nat := items.map (·.1)

/-- The chunk list determined by per-chunk item lists: chunk `i` is
`finalize_chunk i` of the `i`-th item block. -/
def buildChunks (itemss : List (List ChunkItem)) : List DerivedChunk :=
  itemss.enum.map (fun p => finalize_chunk p.1 p.2)

/-- Invariant of the `derive_chunks` message loop: the chunks emitted so
far are finalizations of non-empty item blocks of joined length ≤ 4000;
the blocks' indices followed by the in-progress chunk's indices are
exactly the included indices processed so far; the in-progress chunk's
budget is bounded by `currentLen` and by 4000; and no truncation
has occurred (the loop returns immediately when it sets `truncated`). -/
def deriveLoopInv (processedIdxs : List Nat) (st : ChunkState) : Prop :=
  ∃ itemss : List (List ChunkItem),
    st.out = buildChunks itemss ∧
    (∀ b ∈ itemss, b ≠ []) ∧
    (∀ b ∈ itemss, pieceBudget b ≤ CHUNK_TEXT_MAX_CHARS) ∧
    (itemss.map chunkItemsIdxs).flatten ++ chunkItemsIdxs st.current = processedIdxs ∧
    pieceBudget st.current ≤ st.currentLen ∧
    pieceBudget st.current ≤ CHUNK_TEXT_MAX_CHARS ∧
    st.truncated = false

/-- Postcondition of the `derive_chunks` message loop over the remaining
messages: chunks are finalizations of non-empty bounded item blocks whose
indices (followed by the leftover in-progress items) form a prefix of the
included indices — the whole of them unless the loop truncated. -/
def deriveLoopPost (allIdxs : List Nat) (res : ChunkState) : Prop :=
  ∃ itemss : List (List ChunkItem),
    res.out = buildChunks itemss ∧
    (∀ b ∈ itemss, b ≠ []) ∧
    (∀ b ∈ itemss, pieceBudget b ≤ CHUNK_TEXT_MAX_CHARS) ∧
    ((itemss.map chunkItemsIdxs).flatten ++ chunkItemsIdxs res.current) <+: allIdxs ∧
    (res.truncated = false →
      (itemss.map chunkItemsIdxs).flatten ++ chunkItemsIdxs res.current = allIdxs) ∧
    pieceBudget res.current ≤ CHUNK_TEXT_MAX_CHARS

/-- The 2000-character message used to exhibit chunk-budget truncation. -/
def c7Msg : TraceMessage := .user (List.replicate 2000 'a')

/-- The role-tagged text of `c7Msg` (2008 characters: the 8-character
literal tag plus 2000 `a`s). -/
def c7Text : List Char := "[USER]\\n".toList ++ List.replicate 2000 'a'

/-- A 1991-character message for the over-budget chunk exhibit: its tagged
text has 1999 characters, so two of them pack into one chunk (budget
1999 + 2 + 1999 = 4000) whose real text has 1999 + 4 + 1999 = 4002
characters. -/
def c7bMsg : TraceMessage := .user (List.replicate 1991 'a')

/-- The role-tagged text of `c7bMsg` (1999 characters). -/
def c7bText : List Char := "[USER]\\n".toList ++ List.replicate 1991 'a'

/-! ## attribution/session_stats.rs — contribution-stats fallback -/

/-- `attribution/models.rs` `ToolStats`.  `line_count` is `u32`. -/
structure ToolStats where
  tool : String
  model : Option String
  line_count : Nat
deriving DecidableEq, Repr

/-- `attribution/models.rs` `ContributionStats`.  Line counts are `u32`;
`ai_percentage` is `f64`, modelled as `ℚ`. -/
structure ContributionStats where
  human_lines : Nat
  ai_agent_lines : Nat
  ai_assist_lines : Nat
  collaborative_lines : Nat
  total_lines : Nat
  ai_percentage : ℚ
  tool_breakdown : Option (List ToolStats)
  primary_tool : Option String
  model : Option String
deriving DecidableEq, Repr

/-- `u32` truncation (`as u32` / wrapping multiplication). -/
def u32 (n : Nat) : Nat := n % 2 ^ 32

/-- `attribution/session_stats.rs` `compute_session_contribution`. -/
def compute_session_contribution (session : SessionExcerpt) (commit_files : List String) :
    ContributionStats :=
  let message_count := u32 session.messages.length
  let estimated_lines := u32 (message_count * 10)
  let session_files := (session.messages.filterMap (·.files)).flatten
  let overlap_count := u32 (commit_files.filter (fun cf => cf ∈ session_files)).length
  let ai_lines :=
    if 0 < overlap_count then max estimated_lines (u32 (u32 commit_files.length * 5))
    else estimated_lines / 2
  let tool := session.tool.toDisplay
  { human_lines := 0
    ai_agent_lines := ai_lines
    ai_assist_lines := 0
    collaborative_lines := 0
    total_lines := ai_lines
    ai_percentage := 100
    tool_breakdown := some [⟨tool, none, ai_lines⟩]
    primary_tool := some tool
    model := none }

/-! ## story_anchors — note refs and import/export precedence

`story_anchors/refs.rs` defines the canonical and legacy refs.  The
attribution commands import the same ref strings through
`attribution/notes.rs` (as `ATTRIBUTION_NOTES_REF` /
`LEGACY_ATTRIBUTION_NOTES_REF`), a file not among the provided sources;
spec §4.H and `refs.rs` fix their values. -/

def ATTRIBUTION_REF_CANONICAL : String := "refs/notes/narrative/attribution"

def SESSIONS_REF_CANONICAL : String := "refs/notes/narrative/sessions"

def LINEAGE_REF_CANONICAL : String := "refs/notes/narrative/lineage"

def ATTRIBUTION_REF_LEGACY_NARRATIVE : String := "refs/notes/narrative-attribution"

/-- The git notes state: ref name and commit sha to note body.
`repo.find_note(Some(ref), oid)` is `store ref sha`. -/
def NoteStore : Type := String → String → Option String

/-- The note lookup of `attribution/commands.rs`
`import_attribution_note_internal`: canonical ref first, legacy ref on
failure (`find_note(ATTRIBUTION_NOTES_REF).or_else(|_|
find_note(LEGACY_ATTRIBUTION_NOTES_REF))`). -/
def attribution_note_lookup (store : NoteStore) (commit_sha : String) : Option String :=
  match store ATTRIBUTION_REF_CANONICAL commit_sha with
  | some note => some note
  | none => store ATTRIBUTION_REF_LEGACY_NARRATIVE commit_sha

/-- The note lookup of `story_anchors/sessions_notes_io.rs`
`import_sessions_note`: only `SESSIONS_REF_CANONICAL` is consulted; any
failure yields `None` (status "missing"). -/
def sessions_note_lookup (store : NoteStore) (commit_sha : String) : Option String :=
  store SESSIONS_REF_CANONICAL commit_sha

/-- Import status reported by `import_sessions_note`: "imported" when the
canonical note exists, else "missing". -/
def import_sessions_note_status (store : NoteStore) (commit_sha : String) : String :=
  match sessions_note_lookup store commit_sha with
  | some _ => "imported"
  | none => "missing"

/-- `export_sessions_note`'s git write: `repo.note(…,
Some(SESSIONS_REF_CANONICAL), oid, note_text, true)` — an overwriting
write at the canonical ref only. -/
def export_sessions_note_store (store : NoteStore) (commit_sha : String)
    (note_text : String) : NoteStore :=
  fun ref sha =>
    if ref = SESSIONS_REF_CANONICAL ∧ sha = commit_sha then some note_text
    else store ref sha

/-- `export_attribution_note_internal`'s git write: `repo.note(…,
Some(ATTRIBUTION_NOTES_REF), oid, note_text, true)`. -/
def export_attribution_note_store (store : NoteStore) (commit_sha : String)
    (note_text : String) : NoteStore :=
  fun ref sha =>
    if ref = ATTRIBUTION_REF_CANONICAL ∧ sha = commit_sha then some note_text
    else store ref sha

/-! ## Scenario data -/

/-- Scenario S1 session: Claude Code, duration 30 min, ended
2024-01-15T14:30:00Z (epoch 1705329000), touching `src/api.ts` and
`src/utils.ts`. -/
def sessionS1 : SessionExcerpt :=
  ⟨"sess_A", .claudeCode, some 30, some 1705329000,
    [⟨"m1", .user, [], some ["src/api.ts", "src/utils.ts"]⟩]⟩

/-- Scenario S1 commit `c1`: authored 2024-01-15T14:25:00Z, same files. -/
def commitS1c1 : GitCommit :=
  ⟨"c1", some 1705328700, "c1", ["src/api.ts", "src/utils.ts"]⟩

/-- Scenario S1 commit `c2`: authored 2024-01-15T16:00:00Z, other files. -/
def commitS1c2 : GitCommit :=
  ⟨"c2", some 1705334400, "c2", ["docs/README.md"]⟩

/-! ## Theorems -/

/-- C1: in scenario S1 (session ended 2024-01-15T14:30:00Z, duration
30 min, files `src/api.ts`, `src/utils.ts`; `c1` five minutes earlier with
the same files, `c2` ninety minutes later with `docs/README.md`),
`link_session_to_commits` returns `c1` with confidence exactly
`0.6·1.0 + 0.4·1.0 = 1`, and a link created from that confidence has
`needs_review = false`. -/
theorem claim_C1_s1_autolink :
    link_session_to_commits sessionS1 [commitS1c1, commitS1c2] =
      .ok ⟨"c1", 1, true, 1, 1⟩ ∧
    needs_review 1 = false := by
  constructor
  · simp only [sessionS1, commitS1c1, commitS1c2]
    have hfs1 : score_file_overlap ["src/api.ts", "src/utils.ts"]
        ["src/api.ts", "src/utils.ts"] = 1 := by
      have h : dedupFirst ((["src/api.ts", "src/utils.ts"].map normalize_path).filter (· ≠ "")) =
          ["src/api.ts", "src/utils.ts"] := by decide
      rw [score_file_overlap, h]
      norm_num
    have hfs2 : score_file_overlap ["src/api.ts", "src/utils.ts"] ["docs/README.md"] = 0 := by
      have h1 : dedupFirst ((["src/api.ts", "src/utils.ts"].map normalize_path).filter (· ≠ "")) =
          ["src/api.ts", "src/utils.ts"] := by decide
      have h2 : dedupFirst ((["docs/README.md"].map normalize_path).filter (· ≠ "")) =
          ["docs/README.md"] := by decide
      rw [score_file_overlap, h1, h2]
      norm_num
      exact Or.inl ⟨by decide, by decide⟩
    have hts1 : score_temporal_overlap 1705329000 30 1705328700 = 1 := by
      norm_num [score_temporal_overlap, MAX_SESSION_DURATION_MIN]
    have hts2 : score_temporal_overlap 1705329000 30 1705334400 = 0 := by
      norm_num [score_temporal_overlap, MAX_SESSION_DURATION_MIN, minutesBetween,
        TEMPORAL_DECAY_MIN]
    have hc1 : calculate_link_confidence 1705329000 30
        ⟨"c1", some 1705328700, "c1", ["src/api.ts", "src/utils.ts"]⟩
        ["src/api.ts", "src/utils.ts"] = some ⟨"c1", 1, true, 1, 1⟩ := by
      simp only [calculate_link_confidence]
      rw [hts1, hfs1]
      norm_num [CONFIDENCE_THRESHOLD, TEMPORAL_WEIGHT, FILE_OVERLAP_WEIGHT]
    have hc2 : calculate_link_confidence 1705329000 30
        ⟨"c2", some 1705334400, "c2", ["docs/README.md"]⟩
        ["src/api.ts", "src/utils.ts"] = none := by
      simp only [calculate_link_confidence]
      rw [hts2, hfs2]
      norm_num [CONFIDENCE_THRESHOLD, TEMPORAL_WEIGHT, FILE_OVERLAP_WEIGHT]
    have hsec : detect_session_secrets
        [(⟨"m1", .user, [], some ["src/api.ts", "src/utils.ts"]⟩ : SessionMessage)] = [] := by
      decide
    have hfiles : extract_session_files
        [(⟨"m1", .user, [], some ["src/api.ts", "src/utils.ts"]⟩ : SessionMessage)] =
        ["src/api.ts", "src/utils.ts"] := by decide
    rw [link_session_to_commits]
    norm_num [hsec, hfiles, TIME_WINDOW_TOLERANCE_MIN, List.filter, List.foldl]
    norm_num [linkLoopStep, hc1, hc2, lastWithSha, minutesBetween]
  · norm_num [needs_review]

/-- C3 counterexample: a commit 330 seconds (5.5 minutes) after the end of
a 30-minute session is more than 5 minutes outside the session window, yet
`score_temporal_overlap` yields 1/2, not the 0.0 the claim requires: the
code truncates the distance to whole minutes (⌊330 s / 60⌋ = 5 ≤ 5). -/
theorem claim_C3_counterexample :
    score_temporal_overlap 1705329000 30 1705329330 = 1/2 ∧
    ((1/2 : ℚ) = 0 → False) ∧
    ¬(1705329000 - min (30 : ℤ) 240 * 60 ≤ 1705329330 ∧ (1705329330 : ℤ) ≤ 1705329000) ∧
    (1705329330 - 1705329000 : ℤ) = 330 ∧ (300 : ℤ) < 330 := by
  refine ⟨?_, by norm_num, by norm_num, by norm_num, by norm_num⟩
  norm_num [score_temporal_overlap, MAX_SESSION_DURATION_MIN, minutesBetween,
    TEMPORAL_DECAY_MIN]

/-- C8 counterexample: a linked two-message session whose file hints
(`b`) do not overlap the commit's files (`a`) gets
`ai_agent_lines = (2·10)/2 = 10` from the fallback — not
`message_count × 10 = 20`, nor that value capped by `file count × 5 = 5`,
nor the lower-bounded `max` of the two. -/
theorem claim_C8_counterexample :
    (compute_session_contribution
      ⟨"s8", .claudeCode, some 30, some 1705329000,
        [⟨"m1", .user, [], some ["b"]⟩, ⟨"m2", .assistant, [], none⟩]⟩
      ["a"]).ai_agent_lines = 10 ∧
    (10 : ℕ) ≠ 2 * 10 ∧ (10 : ℕ) ≠ min (2 * 10) (1 * 5) ∧ (10 : ℕ) ≠ max (2 * 10) (1 * 5) := by
  refine ⟨by decide, by decide, by decide, by decide⟩

/-- C8 amended: with no line attributions, the fallback
`compute_session_contribution` produces 100 %-AI stats
(`human_lines = 0`, `ai_percentage = 100`, `total = ai_agent_lines`, and
the §3 stats invariant holds), with the AI line count derived as
`max(message_count × 10, commit file count × 5)` (the file-count bound is
a lower bound, not a cap) when the session's file hints overlap the
commit's files, and `(message_count × 10) / 2` when they do not
(`u32` wrapping arithmetic). -/
theorem claim_C8_amended (session : SessionExcerpt) (commit_files : List String) :
    (compute_session_contribution session commit_files).human_lines = 0 ∧
    (compute_session_contribution session commit_files).ai_percentage = 100 ∧
    (compute_session_contribution session commit_files).total_lines =
      (compute_session_contribution session commit_files).ai_agent_lines ∧
    (compute_session_contribution session commit_files).total_lines =
      (compute_session_contribution session commit_files).human_lines +
      (compute_session_contribution session commit_files).ai_agent_lines +
      (compute_session_contribution session commit_files).ai_assist_lines +
      (compute_session_contribution session commit_files).collaborative_lines ∧
    (compute_session_contribution session commit_files).ai_agent_lines =
      (if 0 < u32 (commit_files.filter
            (fun cf => cf ∈ (session.messages.filterMap (·.files)).flatten)).length then
        max (u32 (u32 session.messages.length * 10)) (u32 (u32 commit_files.length * 5))
      else u32 (u32 session.messages.length * 10) / 2) := by
  simp [compute_session_contribution]

/-- C8 witness: the amended statement instantiated at the counterexample
session — no overlap, two messages, one commit file. -/
theorem claim_C8_witness :
    (compute_session_contribution
      ⟨"s8", .claudeCode, some 30, some 1705329000,
        [⟨"m1", .user, [], some ["b"]⟩, ⟨"m2", .assistant, [], none⟩]⟩
      ["a"]).human_lines = 0 ∧
    (compute_session_contribution
      ⟨"s8", .claudeCode, some 30, some 1705329000,
        [⟨"m1", .user, [], some ["b"]⟩, ⟨"m2", .assistant, [], none⟩]⟩
      ["a"]).ai_percentage = 100 := by
  refine ⟨(claim_C8_amended _ _).1, (claim_C8_amended _ _).2.1⟩

theorem replaceCrlf_eq_self : ∀ l : List Char, 'r' ∉ l → replaceCrlf l = l
  | [], _ => rfl
  | [c], _ => rfl
  | [c, c2], _ => rfl
  | [c, c2, c3], _ => rfl
  | c :: c2 :: c3 :: c4 :: rest, h => by
    have hc2 : c2 ≠ 'r' :=
      fun hh => h (hh ▸ List.mem_cons_of_mem _ (List.mem_cons_self _ _))
    have h' : 'r' ∉ c2 :: c3 :: c4 :: rest := fun hh => h (List.mem_cons_of_mem _ hh)
    rw [replaceCrlf, if_neg (fun hh => hc2 hh.2.1),
      replaceCrlf_eq_self (c2 :: c3 :: c4 :: rest) h']

theorem trimChars_eq_self (l : List Char)
    (h1 : ∀ c, l.head? = some c → c.isWhitespace = false)
    (h2 : ∀ c, l.getLast? = some c → c.isWhitespace = false) :
    trimChars l = l := by
  unfold trimChars
  cases l with
  | nil => rfl
  | cons a as =>
    have ha : a.isWhitespace = false := h1 a rfl
    rw [List.dropWhile_cons, ha]
    simp only [Bool.false_eq_true, if_false]
    have hlast : ∀ c, (a :: as).getLast? = some c → c.isWhitespace = false := h2
    cases hrev : (a :: as).reverse with
    | nil => simp at hrev
    | cons b bs =>
      have hb : (a :: as).getLast? = some b := by
        rw [List.getLast?_eq_head?_reverse, hrev]
        rfl
      rw [List.dropWhile_cons, hlast b hb]
      simp only [Bool.false_eq_true, if_false]
      rw [← hrev, List.reverse_reverse]

theorem normalize_text_eq_self (l : List Char) (hr : 'r' ∉ l)
    (h1 : ∀ c, l.head? = some c → c.isWhitespace = false)
    (h2 : ∀ c, l.getLast? = some c → c.isWhitespace = false) :
    normalize_text l = l := by
  unfold normalize_text
  rw [replaceCrlf_eq_self l hr]
  exact trimChars_eq_self l h1 h2

theorem finalize_chunk_single (i idx : Nat) (t : List Char) (role : String) :
    finalize_chunk i [(idx, t, role)] = ⟨i, idx, idx, role, t⟩ := by
  simp [finalize_chunk, sortedUniqueRoles, insertSorted, joinPieces, String.intercalate,
    String.intercalate.go]

theorem list_isEmpty_false_of_length {l : List Char} {n : Nat}
    (h : l.length = n + 1) : l.isEmpty = false := by
  cases l with
  | nil => simp at h
  | cons a as => rfl

/-- C6 (scenario S5): for a session of exactly three messages whose
role-tagged, normalized texts are 1000, 3500 and 500 characters long,
`derive_chunks` puts each message in a chunk of its own — a new chunk
starts whenever adding the next message plus a 2-character separator would
exceed 4000 characters — with consecutive singleton message ranges and
`truncated = false`. -/
theorem claim_C6_s5_chunking (m0 m1 m2 : TraceMessage) (repo : Int) (sid : String)
    (h0 : (normalize_text (message_to_index_text m0).2).length = 1000)
    (h1 : (normalize_text (message_to_index_text m1).2).length = 3500)
    (h2 : (normalize_text (message_to_index_text m2).2).length = 500) :
    derive_chunks repo sid [m0, m1, m2] =
      ⟨[⟨0, 0, 0, (message_to_index_text m0).1, normalize_text (message_to_index_text m0).2⟩,
        ⟨1, 1, 1, (message_to_index_text m1).1, normalize_text (message_to_index_text m1).2⟩,
        ⟨2, 2, 2, (message_to_index_text m2).1, normalize_text (message_to_index_text m2).2⟩],
       false⟩ := by
  set n0 := normalize_text (message_to_index_text m0).2 with hn0
  set n1 := normalize_text (message_to_index_text m1).2 with hn1
  set n2 := normalize_text (message_to_index_text m2).2 with hn2
  have e0 : n0.isEmpty = false := list_isEmpty_false_of_length (n := 999) h0
  have e1 : n1.isEmpty = false := list_isEmpty_false_of_length (n := 3499) h1
  have e2 : n2.isEmpty = false := list_isEmpty_false_of_length (n := 499) h2
  have t0 : truncate_chars n0 CHUNK_TEXT_MAX_CHARS = n0 := by
    rw [truncate_chars, if_pos (by rw [h0]; norm_num [CHUNK_TEXT_MAX_CHARS])]
  have t1 : truncate_chars n1 CHUNK_TEXT_MAX_CHARS = n1 := by
    rw [truncate_chars, if_pos (by rw [h1]; norm_num [CHUNK_TEXT_MAX_CHARS])]
  have t2 : truncate_chars n2 CHUNK_TEXT_MAX_CHARS = n2 := by
    rw [truncate_chars, if_pos (by rw [h2]; norm_num [CHUNK_TEXT_MAX_CHARS])]
  rw [derive_chunks]
  simp only [List.enum, List.enumFrom, deriveLoop, e0, e1, e2, t0, t1, t2,
    Bool.false_eq_true, if_false, h0, h1, h2, List.isEmpty_nil, List.isEmpty_cons,
    List.length_nil, List.length_cons, List.length_append, finalize_chunk_single]
  norm_num [CHUNK_TEXT_MAX_CHARS, MAX_CHUNKS_PER_SESSION, finalize_chunk_single]

theorem getLast?_tag_replicate (tag : List Char) (n : Nat) (c : Char) :
    (tag ++ List.replicate (n + 1) c).getLast? = some c := by
  rw [List.getLast?_append_of_ne_nil _ (by simp), List.getLast?_eq_head?_reverse,
    List.reverse_replicate, List.replicate_succ, List.head?_cons]

theorem mem_tag_replicate_cases {d : Char} {tag : List Char} {n : Nat} {c : Char}
    (h : d ∈ tag ++ List.replicate n c) : d ∈ tag ∨ d = c := by
  rcases List.mem_append.mp h with h | h
  · exact Or.inl h
  · exact Or.inr (List.eq_of_mem_replicate h)

theorem normalize_tag_replicate (tag : List Char) (n : Nat) (c hdc : Char)
    (hr : 'r' ∉ tag)
    (hh1 : tag.head? = some hdc) (hh2 : hdc.isWhitespace = false)
    (hcr : c ≠ 'r') (hcw : c.isWhitespace = false) :
    normalize_text (tag ++ List.replicate (n + 1) c) = tag ++ List.replicate (n + 1) c := by
  refine normalize_text_eq_self _ ?_ ?_ ?_
  · intro hmem
    rcases mem_tag_replicate_cases hmem with h | h
    · exact hr h
    · exact hcr h.symm
  · intro d hd
    cases tag with
    | nil => simp at hh1
    | cons x xs =>
      rw [List.cons_append, List.head?_cons, Option.some.injEq] at hd
      rw [List.head?_cons, Option.some.injEq] at hh1
      subst hh1
      subst hd
      exact hh2
  · intro d hd
    rw [getLast?_tag_replicate, Option.some.injEq] at hd
    exact hd ▸ hcw
/-- C6 witness: the chunk layout at concrete messages of tagged lengths
1000 (the 8-character literal `[USER]` tag + 992 chars), 3500 and 500. -/
theorem claim_C6_witness :
    derive_chunks 7 "sess"
      [.user (List.replicate 992 'a'), .assistant (List.replicate 3487 'b'),
       .user (List.replicate 492 'c')] =
      ⟨[⟨0, 0, 0, "user", "[USER]\\n".toList ++ List.replicate 992 'a'⟩,
        ⟨1, 1, 1, "assistant", "[ASSISTANT]\\n".toList ++ List.replicate 3487 'b'⟩,
        ⟨2, 2, 2, "user", "[USER]\\n".toList ++ List.replicate 492 'c'⟩], false⟩ := by
  have hm0 : normalize_text (message_to_index_text (.user (List.replicate 992 'a'))).2 =
      "[USER]\\n".toList ++ List.replicate 992 'a' := by
    show normalize_text ("[USER]\\n".toList ++ List.replicate (991 + 1) 'a') = _
    exact normalize_tag_replicate _ _ _ '[' (by decide) (by decide) (by decide)
      (by decide) (by decide)
  have hm1 : normalize_text (message_to_index_text (.assistant (List.replicate 3487 'b'))).2 =
      "[ASSISTANT]\\n".toList ++ List.replicate 3487 'b' := by
    show normalize_text ("[ASSISTANT]\\n".toList ++ List.replicate (3486 + 1) 'b') = _
    exact normalize_tag_replicate _ _ _ '[' (by decide) (by decide) (by decide)
      (by decide) (by decide)
  have hm2 : normalize_text (message_to_index_text (.user (List.replicate 492 'c'))).2 =
      "[USER]\\n".toList ++ List.replicate 492 'c' := by
    show normalize_text ("[USER]\\n".toList ++ List.replicate (491 + 1) 'c') = _
    exact normalize_tag_replicate _ _ _ '[' (by decide) (by decide) (by decide)
      (by decide) (by decide)
  have h0 : (normalize_text (message_to_index_text (.user (List.replicate 992 'a'))).2).length
      = 1000 := by
    rw [hm0, List.length_append, List.length_replicate]
    rfl
  have h1 : (normalize_text
      (message_to_index_text (.assistant (List.replicate 3487 'b'))).2).length = 3500 := by
    rw [hm1, List.length_append, List.length_replicate]
    rfl
  have h2 : (normalize_text (message_to_index_text (.user (List.replicate 492 'c'))).2).length
      = 500 := by
    rw [hm2, List.length_append, List.length_replicate]
    rfl
  have := claim_C6_s5_chunking _ _ _ 7 "sess" h0 h1 h2
  rw [this, hm0, hm1, hm2]
  simp only [message_to_index_text]

/-- C9 counterexample: a notes store holding a sessions note only under a
legacy-style ref (`refs/notes/narrative-sessions`) imports as "missing" —
the sessions importer consults no legacy ref — while the attribution
lookup does fall back to its legacy ref for an analogous store. -/
theorem claim_C9_counterexample :
    import_sessions_note_status
      (fun ref sha =>
        if ref = "refs/notes/narrative-sessions" ∧ sha = "c" then some "legacy note" else none)
      "c" = "missing" ∧
    (fun ref sha =>
        if ref = "refs/notes/narrative-sessions" ∧ sha = "c" then some "legacy note" else none :
      NoteStore) "refs/notes/narrative-sessions" "c" = some "legacy note" ∧
    attribution_note_lookup
      (fun ref sha =>
        if ref = ATTRIBUTION_REF_LEGACY_NARRATIVE ∧ sha = "c" then some "legacy note" else none)
      "c" = some "legacy note" := by
  refine ⟨rfl, rfl, rfl⟩

/-- C9 amended: the attribution importer reads the canonical ref first and
falls back to `refs/notes/narrative-attribution`; the sessions importer
reads only the canonical ref (no legacy fallback); both exporters write
only their canonical refs, leaving every other ref untouched. -/
theorem claim_C9_amended :
    (∀ (store : NoteStore) (sha note : String),
      store ATTRIBUTION_REF_CANONICAL sha = some note →
      attribution_note_lookup store sha = some note) ∧
    (∀ (store : NoteStore) (sha : String),
      store ATTRIBUTION_REF_CANONICAL sha = none →
      attribution_note_lookup store sha = store ATTRIBUTION_REF_LEGACY_NARRATIVE sha) ∧
    (∀ (store : NoteStore) (sha : String),
      sessions_note_lookup store sha = store SESSIONS_REF_CANONICAL sha) ∧
    (∀ (store : NoteStore) (sha note ref sha' : String), ref ≠ SESSIONS_REF_CANONICAL →
      export_sessions_note_store store sha note ref sha' = store ref sha') ∧
    (∀ (store : NoteStore) (sha note ref sha' : String), ref ≠ ATTRIBUTION_REF_CANONICAL →
      export_attribution_note_store store sha note ref sha' = store ref sha') := by
  refine ⟨?_, ?_, ?_, ?_, ?_⟩
  · intro store sha note h
    rw [attribution_note_lookup, h]
  · intro store sha h
    rw [attribution_note_lookup, h]
  · intro store sha
    rfl
  · intro store sha note ref sha' h
    rw [export_sessions_note_store, if_neg (fun hh => h hh.1)]
  · intro store sha note ref sha' h
    rw [export_attribution_note_store, if_neg (fun hh => h hh.1)]

theorem detect_session_secrets_eq_flatten (msgs : List SessionMessage) :
    detect_session_secrets msgs = (msgs.map (fun m => detect_secrets m.text)).flatten := by
  have general : ∀ (l : List SessionMessage) (a : List String),
      l.foldl (fun acc m => acc ++ detect_secrets m.text) a =
        a ++ (l.map (fun m => detect_secrets m.text)).flatten := by
    intro l
    induction l with
    | nil => intro a; simp
    | cons m rest ih =>
      intro a
      simp only [List.foldl_cons, List.map_cons, List.flatten_cons, ih, List.append_assoc]
  rw [detect_session_secrets, general]
  simp

/-- The three trigger conditions of claim C10, transcribed. -/
def c10Trigger (text : List Char) : Prop :=
  (∃ k ∈ SECRET_KEYWORDS, isInfixB k.toList (text.map Char.toLower) = true) ∨
  isInfixB "sk-".toList text = true ∨ isInfixB "pk_".toList text = true ∨
  (∃ w ∈ splitWhitespace text, 32 ≤ w.length ∧ w.all isSecretWordChar = true)

theorem detect_secrets_ne_nil_of_trigger {text : List Char} (h : c10Trigger text) :
    detect_secrets text ≠ [] := by
  rw [detect_secrets]
  rcases h with ⟨k, hk, hinf⟩ | hsk | hpk | ⟨w, hw, hlen, hall⟩
  · intro hc
    rcases List.append_eq_nil.mp hc with ⟨h1, _⟩
    have : k ∈ SECRET_KEYWORDS.filter
        (fun k => isInfixB k.toList (text.map Char.toLower)) :=
      List.mem_filter.mpr ⟨hk, hinf⟩
    rw [List.map_eq_nil_iff] at h1
    rw [h1] at this
    exact absurd this (List.not_mem_nil k)
  · intro hc
    rcases List.append_eq_nil.mp hc with ⟨_, h2⟩
    simp only [SECRET_PATTERN_NAMES, List.map_cons, List.flatten_cons, hsk, Bool.true_or,
      if_true, List.append_eq_nil, List.cons_ne_nil, false_and, and_false] at h2
  · intro hc
    rcases List.append_eq_nil.mp hc with ⟨_, h2⟩
    simp only [SECRET_PATTERN_NAMES, List.map_cons, List.flatten_cons, hpk, Bool.or_true,
      if_true, List.append_eq_nil, List.cons_ne_nil, false_and, and_false] at h2
  · intro hc
    rcases List.append_eq_nil.mp hc with ⟨_, h2⟩
    have hfind : (splitWhitespace text).find?
        (fun w => 32 ≤ w.length && w.all isSecretWordChar) ≠ none := by
      intro hnone
      have := List.find?_eq_none.mp hnone w hw
      simp [hlen, hall] at this
    rcases hopt : (splitWhitespace text).find?
        (fun w => 32 ≤ w.length && w.all isSecretWordChar) with _ | w'
    · exact hfind hopt
    · rw [hopt] at h2
      simp only [SECRET_PATTERN_NAMES, List.map_cons, List.flatten_cons,
        List.append_eq_nil] at h2
      rcases h2 with ⟨⟨_, h2b⟩, _⟩
      exact absurd h2b (List.cons_ne_nil _ _)

theorem link_err_secret (s : SessionExcerpt) (commits : List GitCommit) (e : Int)
    (hts : s.imported_at = some e) (hne : detect_session_secrets s.messages ≠ []) :
    link_session_to_commits s commits =
      .err (.secretDetected (detect_session_secrets s.messages)) := by
  rw [link_session_to_commits, hts]
  have : (detect_session_secrets s.messages).isEmpty = false := by
    cases h : detect_session_secrets s.messages with
    | nil => exact absurd h hne
    | cons a l => rfl
  simp only [this]
  rfl

/-- C10 counterexample: a session whose message text contains "password"
(satisfying the claim's trigger) but whose `imported_at_iso` does not
parse makes `link_session_to_commits` return `ParseError`, not
`SecretDetected`: the timestamp parse precedes the secret scan. -/
theorem claim_C10_counterexample :
    c10Trigger "password".toList ∧
    link_session_to_commits
      ⟨"s10", .unknown, none, none, [⟨"m1", .user, "password".toList, none⟩]⟩
      [⟨"c1", some 1705328700, "c1", ["src/api.ts"]⟩] =
      .err (.parseError "Invalid session timestamp") ∧
    (match link_session_to_commits
      ⟨"s10", .unknown, none, none, [⟨"m1", .user, "password".toList, none⟩]⟩
      [⟨"c1", some 1705328700, "c1", ["src/api.ts"]⟩] with
     | .err (.secretDetected _) => False
     | _ => True) := by
  have heval : link_session_to_commits
      ⟨"s10", .unknown, none, none, [⟨"m1", .user, "password".toList, none⟩]⟩
      [⟨"c1", some 1705328700, "c1", ["src/api.ts"]⟩] =
      .err (.parseError "Invalid session timestamp") := by decide
  refine ⟨?_, heval, by rw [heval]; trivial⟩
  left
  exact ⟨"password", by decide, by decide⟩

/-- C10 amended: for every session whose imported-at timestamp parses, if
any message text contains (case-insensitively) one of the secret keywords,
or contains `sk-` or `pk_`, or contains a whitespace-delimited word of 32+
alphanumeric/underscore/hyphen characters, then `link_session_to_commits`
returns `SecretDetected` regardless of the candidate commits. -/
theorem claim_C10_amended (s : SessionExcerpt) (commits : List GitCommit) (e : Int)
    (hts : s.imported_at = some e) (htrig : ∃ m ∈ s.messages, c10Trigger m.text) :
    ∃ kinds, kinds ≠ [] ∧
      link_session_to_commits s commits = .err (.secretDetected kinds) := by
  obtain ⟨m, hm, htr⟩ := htrig
  have hne : detect_session_secrets s.messages ≠ [] := by
    rw [detect_session_secrets_eq_flatten]
    intro hc
    have : detect_secrets m.text = [] := by
      have hmem : detect_secrets m.text ∈ s.messages.map (fun m => detect_secrets m.text) :=
        List.mem_map.mpr ⟨m, hm, rfl⟩
      by_contra hne'
      cases hd : detect_secrets m.text with
      | nil => exact hne' hd
      | cons a l =>
        have : a ∈ (s.messages.map (fun m => detect_secrets m.text)).flatten :=
          List.mem_flatten.mpr ⟨_, hmem, by rw [hd]; exact List.mem_cons_self _ _⟩
        rw [hc] at this
        exact absurd this (List.not_mem_nil a)
    exact detect_secrets_ne_nil_of_trigger htr this
  exact ⟨_, hne, link_err_secret s commits e hts hne⟩

/-- C10 witness: the amended statement at a concrete benign-prose
session ("password" in ordinary text) with a parseable timestamp. -/
theorem claim_C10_witness :
    ∃ kinds, kinds ≠ [] ∧
      link_session_to_commits
        ⟨"s10w", .unknown, some 30, some 1705329000,
          [⟨"m1", .user, "password".toList, none⟩]⟩ [] =
        .err (.secretDetected kinds) := by
  refine claim_C10_amended _ _ 1705329000 rfl ?_
  refine ⟨⟨"m1", .user, "password".toList, none⟩, by decide, ?_⟩
  left
  exact ⟨"password", by decide, by decide⟩

/-- C4 counterexample: importing the scenario-S3 session (text "My key is
sk-abc123xyz789foo456bar789baz01234567890") through the file-based linker
fails with `SecretDetected`, but the kind list is the linker's pattern
names — repeated "long string: 41 chars" entries among them — not the
redactor kind list `["OPENAI_KEY"]`. -/
theorem claim_C4_counterexample :
    import_session_file_flow
      ⟨"s3", .claudeCode, some 30, some 1705329000,
        [⟨"m1", .user, "My key is sk-abc123xyz789foo456bar789baz01234567890".toList, none⟩]⟩
      [] =
      .err (.secretDetected
        ["base64-like", "long string: 41 chars", "sk- API key", "long string: 41 chars",
         "pk_ API key", "long string: 41 chars",
         "long random string (possible secret)", "long string: 41 chars"]) ∧
    (["base64-like", "long string: 41 chars", "sk- API key", "long string: 41 chars",
      "pk_ API key", "long string: 41 chars",
      "long random string (possible secret)", "long string: 41 chars"] = ["OPENAI_KEY"] →
      False) := by
  exact ⟨by decide, by decide⟩

/-- C4 amended: when the pre-link secret scan finds hits, the file-based
importing flow fails with `SecretDetected` carrying the detected pattern
names before any link is attempted, and `link_session_to_commits` (for a
session whose timestamp parses) returns `SecretDetected` with the same
scan output; the kinds are `detect_secrets` pattern names, not redactor
kinds such as `OPENAI_KEY`. -/
theorem claim_C4_amended :
    (∀ (s : SessionExcerpt) (commits : List GitCommit),
      (s.messages.map (fun m => detect_secrets m.text)).flatten ≠ [] →
      import_session_file_flow s commits =
        .err (.secretDetected ((s.messages.map (fun m => detect_secrets m.text)).flatten))) ∧
    (∀ (s : SessionExcerpt) (commits : List GitCommit) (e : Int),
      s.imported_at = some e → detect_session_secrets s.messages ≠ [] →
      link_session_to_commits s commits =
        .err (.secretDetected (detect_session_secrets s.messages))) := by
  constructor
  · intro s commits h
    rw [import_session_file_flow]
    have : ((s.messages.map (fun m => detect_secrets m.text)).flatten).isEmpty = false := by
      cases hd : (s.messages.map (fun m => detect_secrets m.text)).flatten with
      | nil => exact absurd hd h
      | cons a l => rfl
    simp only [this]
    rfl
  · intro s commits e hts hne
    exact link_err_secret s commits e hts hne

/-- C4 witness: the amended statement at the scenario-S3 session. -/
theorem claim_C4_witness :
    import_session_file_flow
      ⟨"s3", .claudeCode, some 30, some 1705329000,
        [⟨"m1", .user, "My key is sk-abc123xyz789foo456bar789baz01234567890".toList, none⟩]⟩
      [] =
      .err (.secretDetected
        (([(⟨"m1", .user,
            "My key is sk-abc123xyz789foo456bar789baz01234567890".toList, none⟩ :
            SessionMessage)].map (fun m => detect_secrets m.text)).flatten)) ∧
    link_session_to_commits
      ⟨"s3", .claudeCode, some 30, some 1705329000,
        [⟨"m1", .user, "My key is sk-abc123xyz789foo456bar789baz01234567890".toList, none⟩]⟩
      [] =
      .err (.secretDetected (detect_session_secrets
        [⟨"m1", .user, "My key is sk-abc123xyz789foo456bar789baz01234567890".toList, none⟩])) := by
  constructor
  · exact claim_C4_amended.1 _ [] (by decide)
  · exact claim_C4_amended.2 _ [] 1705329000 rfl (by decide)

set_option maxHeartbeats 1000000 in
/-- C2 counterexample: three candidates all inside the session window with
confidences 11/15, 19/25 and 4/5 (distances 1, 30 and 55 minutes).  The
code returns `cC` (confidence 4/5, 55 min away) although `cB` passes the
threshold, lies within 0.05 of the best passing confidence, and is closer
to the session end (30 < 55): the tie-break is applied only against the
current best during a single pass, so the claimed global property fails. -/
theorem claim_C2_counterexample :
    link_session_to_commits
      ⟨"s2", .claudeCode, some 60, some 1705329000, [⟨"m1", .user, [], some ["a", "b"]⟩]⟩
      [⟨"cA", some 1705328940, "", ["a", "c"]⟩,
       ⟨"cB", some 1705327200, "", ["a", "b", "c", "d", "e"]⟩,
       ⟨"cC", some 1705325700, "", ["a"]⟩] =
      .ok ⟨"cC", 4/5, true, 1, 1/2⟩ ∧
    calculate_link_confidence 1705329000 60
      ⟨"cB", some 1705327200, "", ["a", "b", "c", "d", "e"]⟩ ["a", "b"] =
      some ⟨"cB", 19/25, true, 1, 2/5⟩ ∧
    |(4 : ℚ)/5 - 19/25| ≤ 1/20 ∧
    minutesBetween 1705327200 1705329000 < minutesBetween 1705325700 1705329000 := by
  have hd1 : dedupFirst (((["a", "b"] : List String).map normalize_path).filter (· ≠ "")) =
      ["a", "b"] := by decide
  have hdA : dedupFirst (((["a", "c"] : List String).map normalize_path).filter (· ≠ "")) =
      ["a", "c"] := by decide
  have hdB : dedupFirst (((["a", "b", "c", "d", "e"] : List String).map normalize_path).filter
      (· ≠ "")) = ["a", "b", "c", "d", "e"] := by decide
  have hdC : dedupFirst (((["a"] : List String).map normalize_path).filter (· ≠ "")) =
      ["a"] := by decide
  have hfsA : score_file_overlap ["a", "b"] ["a", "c"] = 1/3 := by
    rw [score_file_overlap, hd1, hdA]
    norm_num
    simp
    norm_num
  have hfsB : score_file_overlap ["a", "b"] ["a", "b", "c", "d", "e"] = 2/5 := by
    rw [score_file_overlap, hd1, hdB]
    norm_num
  have hfsC : score_file_overlap ["a", "b"] ["a"] = 1/2 := by
    rw [score_file_overlap, hd1, hdC]
    norm_num
    simp
    norm_num
  have htsA : score_temporal_overlap 1705329000 60 1705328940 = 1 := by
    norm_num [score_temporal_overlap, MAX_SESSION_DURATION_MIN]
  have htsB : score_temporal_overlap 1705329000 60 1705327200 = 1 := by
    norm_num [score_temporal_overlap, MAX_SESSION_DURATION_MIN]
  have htsC : score_temporal_overlap 1705329000 60 1705325700 = 1 := by
    norm_num [score_temporal_overlap, MAX_SESSION_DURATION_MIN]
  have hcA : calculate_link_confidence 1705329000 60
      ⟨"cA", some 1705328940, "", ["a", "c"]⟩ ["a", "b"] =
      some ⟨"cA", 11/15, true, 1, 1/3⟩ := by
    simp only [calculate_link_confidence]
    rw [htsA, hfsA]
    norm_num [CONFIDENCE_THRESHOLD, TEMPORAL_WEIGHT, FILE_OVERLAP_WEIGHT]
  have hcB : calculate_link_confidence 1705329000 60
      ⟨"cB", some 1705327200, "", ["a", "b", "c", "d", "e"]⟩ ["a", "b"] =
      some ⟨"cB", 19/25, true, 1, 2/5⟩ := by
    simp only [calculate_link_confidence]
    rw [htsB, hfsB]
    norm_num [CONFIDENCE_THRESHOLD, TEMPORAL_WEIGHT, FILE_OVERLAP_WEIGHT]
  have hcC : calculate_link_confidence 1705329000 60
      ⟨"cC", some 1705325700, "", ["a"]⟩ ["a", "b"] =
      some ⟨"cC", 4/5, true, 1, 1/2⟩ := by
    simp only [calculate_link_confidence]
    rw [htsC, hfsC]
    norm_num [CONFIDENCE_THRESHOLD, TEMPORAL_WEIGHT, FILE_OVERLAP_WEIGHT]
  have hsec : detect_session_secrets
      [(⟨"m1", .user, [], some ["a", "b"]⟩ : SessionMessage)] = [] := by decide
  have hfiles : extract_session_files
      [(⟨"m1", .user, [], some ["a", "b"]⟩ : SessionMessage)] = ["a", "b"] := by decide
  refine ⟨?_, hcB, by rw [abs_le]; constructor <;> norm_num, by norm_num [minutesBetween]⟩
  rw [link_session_to_commits]
  norm_num [hsec, hfiles, TIME_WINDOW_TOLERANCE_MIN, List.filter, List.foldl]
  norm_num [linkLoopStep, hcA, hcB, hcC, lastWithSha, minutesBetween]
  simp
  norm_num

/-- C3 amended: `score_temporal_overlap` measures the distance outside the
window `[end − min(d, 240 min), end]` in whole minutes (truncated): inside
the window the score is 1; outside, the score is 0 exactly when the
distance is at least 360 seconds (6 whole minutes, not "more than 5
minutes"); distances under one minute still score 1.0; and a distance of
m ∈ [1,5] whole minutes scores `1 − m/10` (a step function, the linear
decay sampled at whole minutes). -/
theorem claim_C3_amended (e d t : Int) :
    ((e - min d MAX_SESSION_DURATION_MIN * 60 ≤ t ∧ t ≤ e) →
      score_temporal_overlap e d t = 1) ∧
    (¬(e - min d MAX_SESSION_DURATION_MIN * 60 ≤ t ∧ t ≤ e) →
      ((score_temporal_overlap e d t = 0 ↔
          360 ≤ (if t < e - min d MAX_SESSION_DURATION_MIN * 60 then
            e - min d MAX_SESSION_DURATION_MIN * 60 - t else t - e)) ∧
       ((if t < e - min d MAX_SESSION_DURATION_MIN * 60 then
            e - min d MAX_SESSION_DURATION_MIN * 60 - t else t - e) < 60 →
          score_temporal_overlap e d t = 1) ∧
       (∀ m : Nat, 1 ≤ m → m ≤ 5 →
          60 * (m : Int) ≤ (if t < e - min d MAX_SESSION_DURATION_MIN * 60 then
            e - min d MAX_SESSION_DURATION_MIN * 60 - t else t - e) →
          (if t < e - min d MAX_SESSION_DURATION_MIN * 60 then
            e - min d MAX_SESSION_DURATION_MIN * 60 - t else t - e) < 60 * ((m : Int) + 1) →
          score_temporal_overlap e d t = 1 - (m : ℚ) / 10))) := by
  set s := e - min d MAX_SESSION_DURATION_MIN * 60 with hs
  constructor
  · intro hin
    rw [score_temporal_overlap, ← hs, if_pos hin]
  · intro hout
    set dist : Int := if t < s then s - t else t - e with hdist
    have hdist_pos : 0 < dist := by
      rw [hdist]
      split
      · omega
      · omega
    have score_eq : score_temporal_overlap e d t =
        (if dist.natAbs / 60 ≤ TEMPORAL_DECAY_MIN then
          1 - (1/2) * ((dist.natAbs / 60 : Nat) : ℚ) / (TEMPORAL_DECAY_MIN : ℚ) else 0) := by
      rw [score_temporal_overlap, ← hs, if_neg hout]
      rw [hdist]
      split
      · simp only [minutesBetween]
        split <;> ring_nf
      · simp only [minutesBetween]
        split <;> ring_nf
    refine ⟨?_, ?_, ?_⟩
    · rw [score_eq]
      constructor
      · intro h0
        by_contra hlt
        push_neg at hlt
        have : dist.natAbs / 60 ≤ TEMPORAL_DECAY_MIN := by
          rw [TEMPORAL_DECAY_MIN]
          omega
        rw [if_pos this] at h0
        have hd5 : (dist.natAbs / 60 : Nat) ≤ 5 := by rw [TEMPORAL_DECAY_MIN] at this; exact this
        have : ((dist.natAbs / 60 : Nat) : ℚ) ≤ 5 := by exact_mod_cast hd5
        rw [TEMPORAL_DECAY_MIN] at h0
        nlinarith [h0]
      · intro h360
        have : ¬ (dist.natAbs / 60 ≤ TEMPORAL_DECAY_MIN) := by
          rw [TEMPORAL_DECAY_MIN]
          omega
        rw [if_neg this]
    · intro hlt60
      rw [score_eq]
      have h0 : dist.natAbs / 60 = 0 := by omega
      rw [h0]
      rw [if_pos (by rw [TEMPORAL_DECAY_MIN]; omega)]
      norm_num
    · intro m h1m hm5 hlo hhi
      rw [score_eq]
      have hm : dist.natAbs / 60 = m := by omega
      rw [hm, if_pos (by rw [TEMPORAL_DECAY_MIN]; omega), TEMPORAL_DECAY_MIN]
      push_cast
      ring

/-- C3 amended witness: a commit 330 s past the session end of a
30-minute session scores `1 − 5/10 = 1/2`. -/
theorem claim_C3_witness :
    score_temporal_overlap 1705329000 30 1705329330 = 1 - (5 : ℚ) / 10 := by
  have h := (claim_C3_amended 1705329000 30 1705329330).2
    (by norm_num [MAX_SESSION_DURATION_MIN])
  exact h.2.2 5 (by norm_num) (by norm_num)
    (by norm_num [MAX_SESSION_DURATION_MIN]) (by norm_num [MAX_SESSION_DURATION_MIN])

theorem filter_sha_eq_single {l : List GitCommit} (hnodup : (l.map (·.sha)).Nodup) :
    ∀ a ∈ l, l.filter (fun x => x.sha = a.sha) = [a] := by
  induction l with
  | nil => intro a ha; exact absurd ha (List.not_mem_nil a)
  | cons x xs ih =>
    rw [List.map_cons, List.nodup_cons] at hnodup
    intro a ha
    rcases List.mem_cons.mp ha with rfl | ha'
    · rw [List.filter_cons_of_pos (by simp)]
      have : xs.filter (fun y => y.sha = a.sha) = [] := by
        rw [List.filter_eq_nil_iff]
        intro y hy hcontra
        exact hnodup.1 (List.mem_map.mpr ⟨y, hy, by simpa using hcontra.symm⟩)
      rw [this]
    · have hne : ¬ (x.sha = a.sha) := by
        intro hcontra
        exact hnodup.1 (List.mem_map.mpr ⟨a, ha', hcontra.symm⟩)
      rw [List.filter_cons_of_neg (by simpa using hne)]
      exact ih hnodup.2 a ha'

theorem lastWithSha_of_nodup {l : List GitCommit} (hnodup : (l.map (·.sha)).Nodup)
    {a : GitCommit} (ha : a ∈ l) : lastWithSha l a.sha = some a := by
  rw [lastWithSha, filter_sha_eq_single hnodup a ha]
  rfl

theorem calc_commit_sha {e dur : Int} {c : GitCommit} {files : List String} {r : LinkResult}
    (h : calculate_link_confidence e dur c files = some r) : r.commit_sha = c.sha := by
  rw [calculate_link_confidence] at h
  rcases hc : c.authored_at with _ | t
  · rw [hc] at h; exact absurd h (by simp)
  · rw [hc] at h
    simp only at h
    split at h
    · exact (Option.some.inj h) ▸ rfl
    · exact absurd h (by simp)

theorem linkLoop_inv (e dur : Int) (files : List String) (cands : List GitCommit)
    (hnodup : (cands.map (·.sha)).Nodup)
    (hmargin : ∀ c ∈ cands, ∀ c' ∈ cands, ∀ rc rc',
      calculate_link_confidence e dur c files = some rc →
      calculate_link_confidence e dur c' files = some rc' →
      |rc.confidence - rc'.confidence| ≤ 1/20) :
    ∀ (rem processed : List GitCommit) (acc : Option LinkResult),
      cands = processed ++ rem → linkLoopInv e dur files processed acc →
      linkLoopInv e dur files (processed ++ rem)
        (rem.foldl (linkLoopStep e dur files cands) acc) := by
  intro rem
  induction rem with
  | nil =>
    intro processed acc heq hinv
    simpa using hinv
  | cons c rest ih =>
    intro processed acc heq hinv
    have hcmem : c ∈ cands := by rw [heq]; simp
    have hproc_sub : ∀ x ∈ processed, x ∈ cands := by
      intro x hx; rw [heq]; exact List.mem_append_left _ hx
    rw [List.foldl_cons]
    have hstep : linkLoopInv e dur files (processed ++ [c])
        (linkLoopStep e dur files cands acc c) := by
      rcases hcalc : calculate_link_confidence e dur c files with _ | rc
      · -- candidate does not pass: accumulator unchanged
        rw [linkLoopStep, hcalc]
        rcases acc with _ | r
        · intro x hx
          rcases List.mem_append.mp hx with hx | hx
          · exact hinv x hx
          · rw [List.mem_singleton.mp hx, hcalc]
        · obtain ⟨c₀, hc₀, hsha, hcalc₀, hmin⟩ := hinv
          exact ⟨c₀, List.mem_append_left _ hc₀, hsha, hcalc₀, by
            intro x hx rx hrx
            rcases List.mem_append.mp hx with hx | hx
            · exact hmin x hx rx hrx
            · rw [List.mem_singleton.mp hx] at hrx
              rw [hrx] at hcalc
              exact absurd hcalc (by simp)⟩
      · rw [linkLoopStep, hcalc]
        rcases acc with _ | r
        · -- first passing candidate
          refine ⟨c, List.mem_append_right _ (List.mem_singleton_self c),
            (calc_commit_sha hcalc).symm, hcalc, ?_⟩
          intro x hx rx hrx
          rcases List.mem_append.mp hx with hx | hx
          · rw [hinv x hx] at hrx
            exact absurd hrx (by simp)
          · rw [List.mem_singleton.mp hx]
        · obtain ⟨c₀, hc₀, hsha, hcalc₀, hmin⟩ := hinv
          have hlook : lastWithSha cands r.commit_sha = some c₀ := by
            rw [← hsha]
            exact lastWithSha_of_nodup hnodup (hproc_sub c₀ hc₀)
          simp only [hlook, Option.some_bind]
          have hmarg : |rc.confidence - r.confidence| ≤ 1/20 :=
            hmargin c hcmem c₀ (hproc_sub c₀ hc₀) rc r hcalc hcalc₀
          have hnotgt : ¬ (r.confidence + 1/20 < rc.confidence) := by
            have := (abs_le.mp hmarg).2
            intro hcontra
            linarith
          rw [if_neg hnotgt]
          split
          · next hcond =>
            refine ⟨c, List.mem_append_right _ (List.mem_singleton_self c),
              (calc_commit_sha hcalc).symm, hcalc, ?_⟩
            intro x hx rx hrx
            rcases List.mem_append.mp hx with hx | hx
            · exact le_trans (le_of_lt hcond.2) (hmin x hx rx hrx)
            · rw [List.mem_singleton.mp hx]
          · next hcond =>
            refine ⟨c₀, List.mem_append_left _ hc₀, hsha, hcalc₀, ?_⟩
            intro x hx rx hrx
            rcases List.mem_append.mp hx with hx | hx
            · exact hmin x hx rx hrx
            · rw [List.mem_singleton.mp hx]
              push_neg at hcond
              exact hcond hmarg
    have := ih (processed ++ [c]) (linkLoopStep e dur files cands acc c)
      (by rw [heq]; simp) hstep
    simpa using this

/-- C2 amended: the tie-break acts only against the current best during a
single pass, so globally it holds in the restricted form: when every pair
of threshold-passing candidates lies within 0.05 confidence of each other
(and candidate shas are distinct), the commit returned by
`link_session_to_commits` has the smallest whole-minute
|commit_time − session_end| among all window candidates that pass the
threshold. -/
theorem claim_C2_amended (s : SessionExcerpt) (commits : List GitCommit)
    (r : LinkResult) (e : Int)
    (hts : s.imported_at = some e)
    (hnodup : (commits.map (·.sha)).Nodup)
    (hmargin : ∀ c ∈ commits, ∀ c' ∈ commits, ∀ rc rc',
      calculate_link_confidence e (s.duration_min.getD 30) c
        (extract_session_files s.messages) = some rc →
      calculate_link_confidence e (s.duration_min.getD 30) c'
        (extract_session_files s.messages) = some rc' →
      |rc.confidence - rc'.confidence| ≤ 1/20)
    (hok : link_session_to_commits s commits = .ok r) :
    ∃ c₀, c₀ ∈ commits ∧ c₀.sha = r.commit_sha ∧
      calculate_link_confidence e (s.duration_min.getD 30) c₀
        (extract_session_files s.messages) = some r ∧
      ∀ c ∈ commits, ∀ t, c.authored_at = some t →
        e - TIME_WINDOW_TOLERANCE_MIN * 60 ≤ t → t ≤ e + TIME_WINDOW_TOLERANCE_MIN * 60 →
        ∀ rc, calculate_link_confidence e (s.duration_min.getD 30) c
          (extract_session_files s.messages) = some rc →
        minutesBetween (c₀.authored_at.getD 0) e ≤ minutesBetween (c.authored_at.getD 0) e := by
  rw [link_session_to_commits, hts] at hok
  simp only at hok
  split at hok
  · exact absurd hok (by simp)
  · split at hok
    · exact absurd hok (by simp)
    · split at hok
      case _ heq =>
        -- heq : fold = some result, hok : ok result = ok r
        have hr : _ = r := (RResult.ok.inj hok)
        set cands := commits.filter (fun c =>
          match c.authored_at with
          | some t => decide (e - TIME_WINDOW_TOLERANCE_MIN * 60 ≤ t ∧
              t ≤ e + TIME_WINDOW_TOLERANCE_MIN * 60)
          | none => false) with hcands
        have hnodupc : (cands.map (·.sha)).Nodup := by
          apply List.Nodup.sublist _ hnodup
          exact List.Sublist.map _ (List.filter_sublist _)
        have hmarginc : ∀ c ∈ cands, ∀ c' ∈ cands, ∀ rc rc',
            calculate_link_confidence e (s.duration_min.getD 30) c
              (extract_session_files s.messages) = some rc →
            calculate_link_confidence e (s.duration_min.getD 30) c'
              (extract_session_files s.messages) = some rc' →
            |rc.confidence - rc'.confidence| ≤ 1/20 := by
          intro c hc c' hc' rc rc' h1 h2
          exact hmargin c (List.mem_of_mem_filter hc) c' (List.mem_of_mem_filter hc') rc rc' h1 h2
        have hinv := linkLoop_inv e (s.duration_min.getD 30) (extract_session_files s.messages)
          cands hnodupc hmarginc cands [] none rfl (by intro c hc; exact absurd hc (List.not_mem_nil c))
        simp only [List.nil_append] at hinv
        rw [heq] at hinv
        rw [hr] at hinv
        obtain ⟨c₀, hc₀, hsha, hcalc₀, hmin⟩ := hinv
        refine ⟨c₀, List.mem_of_mem_filter hc₀, hsha, hcalc₀, ?_⟩
        intro c hc t hct hlo hhi rc hrc
        have hcmem : c ∈ cands := by
          rw [hcands]
          refine List.mem_filter.mpr ⟨hc, ?_⟩
          rw [hct]
          simp only
          exact decide_eq_true ⟨hlo, hhi⟩
        exact hmin c hcmem rc hrc
      case _ heq =>
        exact absurd hok (by simp)

set_option maxHeartbeats 1000000 in
/-- C2 amended witness: two equal-confidence candidates 50 and 1 minutes
from the session end; the link picks the closer one. -/
theorem claim_C2_witness :
    ∃ c₀, c₀ ∈ [(⟨"cX", some 1705326000, "", ["a"]⟩ : GitCommit),
        ⟨"cY", some 1705328940, "", ["a"]⟩] ∧
      c₀.sha = (⟨"cY", (1 : ℚ), true, 1, 1⟩ : LinkResult).commit_sha ∧
      calculate_link_confidence 1705329000
        ((⟨"sw", .claudeCode, some 60, some 1705329000,
          [⟨"m1", .user, [], some ["a"]⟩]⟩ : SessionExcerpt).duration_min.getD 30) c₀
        (extract_session_files [⟨"m1", .user, [], some ["a"]⟩]) =
        some ⟨"cY", 1, true, 1, 1⟩ ∧
      ∀ c ∈ [(⟨"cX", some 1705326000, "", ["a"]⟩ : GitCommit),
          ⟨"cY", some 1705328940, "", ["a"]⟩], ∀ t, c.authored_at = some t →
        1705329000 - TIME_WINDOW_TOLERANCE_MIN * 60 ≤ t →
        t ≤ 1705329000 + TIME_WINDOW_TOLERANCE_MIN * 60 →
        ∀ rc, calculate_link_confidence 1705329000
          ((⟨"sw", .claudeCode, some 60, some 1705329000,
            [⟨"m1", .user, [], some ["a"]⟩]⟩ : SessionExcerpt).duration_min.getD 30) c
          (extract_session_files [⟨"m1", .user, [], some ["a"]⟩]) = some rc →
        minutesBetween (c₀.authored_at.getD 0) 1705329000 ≤
          minutesBetween (c.authored_at.getD 0) 1705329000 := by
  have hfiles : extract_session_files
      [(⟨"m1", .user, [], some ["a"]⟩ : SessionMessage)] = ["a"] := by decide
  have hda : dedupFirst (((["a"] : List String).map normalize_path).filter (· ≠ "")) =
      ["a"] := by decide
  have hfsa : score_file_overlap ["a"] ["a"] = 1 := by
    rw [score_file_overlap, hda]
    norm_num
  have htsX : score_temporal_overlap 1705329000 60 1705326000 = 1 := by
    norm_num [score_temporal_overlap, MAX_SESSION_DURATION_MIN]
  have htsY : score_temporal_overlap 1705329000 60 1705328940 = 1 := by
    norm_num [score_temporal_overlap, MAX_SESSION_DURATION_MIN]
  have hcX : calculate_link_confidence 1705329000 60
      ⟨"cX", some 1705326000, "", ["a"]⟩ ["a"] = some ⟨"cX", 1, true, 1, 1⟩ := by
    simp only [calculate_link_confidence]
    rw [htsX, hfsa]
    norm_num [CONFIDENCE_THRESHOLD, TEMPORAL_WEIGHT, FILE_OVERLAP_WEIGHT]
  have hcY : calculate_link_confidence 1705329000 60
      ⟨"cY", some 1705328940, "", ["a"]⟩ ["a"] = some ⟨"cY", 1, true, 1, 1⟩ := by
    simp only [calculate_link_confidence]
    rw [htsY, hfsa]
    norm_num [CONFIDENCE_THRESHOLD, TEMPORAL_WEIGHT, FILE_OVERLAP_WEIGHT]
  have hsec : detect_session_secrets
      [(⟨"m1", .user, [], some ["a"]⟩ : SessionMessage)] = [] := by decide
  have hok : link_session_to_commits
      ⟨"sw", .claudeCode, some 60, some 1705329000, [⟨"m1", .user, [], some ["a"]⟩]⟩
      [⟨"cX", some 1705326000, "", ["a"]⟩, ⟨"cY", some 1705328940, "", ["a"]⟩] =
      .ok ⟨"cY", 1, true, 1, 1⟩ := by
    rw [link_session_to_commits]
    norm_num [hsec, hfiles, TIME_WINDOW_TOLERANCE_MIN, List.filter, List.foldl]
    norm_num [linkLoopStep, hcX, hcY, lastWithSha, minutesBetween]
    simp
  have hmargin : ∀ c ∈ [(⟨"cX", some 1705326000, "", ["a"]⟩ : GitCommit),
      ⟨"cY", some 1705328940, "", ["a"]⟩], ∀ c' ∈ [(⟨"cX", some 1705326000, "", ["a"]⟩ : GitCommit),
      ⟨"cY", some 1705328940, "", ["a"]⟩], ∀ rc rc',
      calculate_link_confidence 1705329000
        ((⟨"sw", .claudeCode, some 60, some 1705329000,
          [⟨"m1", .user, [], some ["a"]⟩]⟩ : SessionExcerpt).duration_min.getD 30) c
        (extract_session_files [⟨"m1", .user, [], some ["a"]⟩]) = some rc →
      calculate_link_confidence 1705329000
        ((⟨"sw", .claudeCode, some 60, some 1705329000,
          [⟨"m1", .user, [], some ["a"]⟩]⟩ : SessionExcerpt).duration_min.getD 30) c'
        (extract_session_files [⟨"m1", .user, [], some ["a"]⟩]) = some rc' →
      |rc.confidence - rc'.confidence| ≤ 1/20 := by
    simp only [Option.getD_some, hfiles]
    intro c hc c' hc' rc rc' h1 h2
    have hval : ∀ cc ∈ [(⟨"cX", some 1705326000, "", ["a"]⟩ : GitCommit),
        ⟨"cY", some 1705328940, "", ["a"]⟩], ∀ rr,
        calculate_link_confidence 1705329000 60 cc ["a"] = some rr → rr.confidence = 1 := by
      intro cc hcc rr hrr
      rcases List.mem_cons.mp hcc with rfl | hcc
      · rw [hcX] at hrr
        rw [← Option.some.inj hrr]
      · rcases List.mem_cons.mp hcc with rfl | hcc
        · rw [hcY] at hrr
          rw [← Option.some.inj hrr]
        · exact absurd hcc (List.not_mem_nil _)
    rw [hval c hc rc h1, hval c' hc' rc' h2]
    norm_num
  have hmain := claim_C2_amended
    ⟨"sw", .claudeCode, some 60, some 1705329000, [⟨"m1", .user, [], some ["a"]⟩]⟩
    [⟨"cX", some 1705326000, "", ["a"]⟩, ⟨"cY", some 1705328940, "", ["a"]⟩]
    ⟨"cY", 1, true, 1, 1⟩ 1705329000 rfl (by simp) hmargin hok
  exact hmain

/-- C9 amended witness: the ref-precedence statements applied at concrete
stores. -/
theorem claim_C9_witness :
    attribution_note_lookup (fun _ _ => some "note") "c" = some "note" ∧
    sessions_note_lookup (fun _ _ => none) "c" =
      (fun _ _ => none : NoteStore) SESSIONS_REF_CANONICAL "c" ∧
    export_sessions_note_store (fun _ _ => none) "c" "n" ATTRIBUTION_REF_CANONICAL "c" =
      (fun _ _ => none : NoteStore) ATTRIBUTION_REF_CANONICAL "c" ∧
    export_attribution_note_store (fun _ _ => none) "c" "n" SESSIONS_REF_CANONICAL "c" =
      (fun _ _ => none : NoteStore) SESSIONS_REF_CANONICAL "c" := by
  refine ⟨claim_C9_amended.1 _ "c" "note" rfl,
    claim_C9_amended.2.2.1 _ "c",
    claim_C9_amended.2.2.2.1 _ "c" "n" _ "c" (by decide),
    claim_C9_amended.2.2.2.2 _ "c" "n" _ "c" (by decide)⟩


theorem truncate_chars_length_le (input : List Char) (m : Nat) :
    (truncate_chars input m).length ≤ m := by
  unfold truncate_chars
  split
  · assumption
  · simp [List.length_take]

theorem joinPieces_singleton (x : ChunkItem) : joinPieces [x] = x.2.1 := by
  obtain ⟨i, p, r⟩ := x
  rfl

theorem joinPieces_cons_cons (x y : ChunkItem) (l : List ChunkItem) :
    joinPieces (x :: y :: l) =
      x.2.1 ++ '\\' :: 'n' :: '\\' :: 'n' :: joinPieces (y :: l) := by
  obtain ⟨i, p, r⟩ := x
  rfl

theorem pieceBudget_singleton (x : ChunkItem) : pieceBudget [x] = x.2.1.length := by
  obtain ⟨i, p, r⟩ := x
  rfl

theorem pieceBudget_cons_cons (x y : ChunkItem) (l : List ChunkItem) :
    pieceBudget (x :: y :: l) = x.2.1.length + 2 + pieceBudget (y :: l) := by
  obtain ⟨i, p, r⟩ := x
  rfl

theorem pieceBudget_append_single (l : List ChunkItem) (hl : l ≠ []) (x : ChunkItem) :
    pieceBudget (l ++ [x]) = pieceBudget l + 2 + x.2.1.length := by
  induction l with
  | nil => exact absurd rfl hl
  | cons a t ih =>
    cases t with
    | nil =>
      rw [List.singleton_append, pieceBudget_cons_cons, pieceBudget_singleton,
        pieceBudget_singleton]
    | cons b t' =>
      simp only [List.cons_append]
      rw [pieceBudget_cons_cons a b (t' ++ [x]), pieceBudget_cons_cons a b t']
      have h2 := ih (by simp)
      simp only [List.cons_append] at h2
      omega

theorem joinPieces_length_eq : ∀ (l : List ChunkItem), l ≠ [] →
    (joinPieces l).length = pieceBudget l + 2 * (l.length - 1)
  | [], h => absurd rfl h
  | [x], _ => by
    rw [joinPieces_singleton, pieceBudget_singleton]
    simp
  | x :: y :: t, _ => by
    rw [joinPieces_cons_cons, pieceBudget_cons_cons]
    have h2 := joinPieces_length_eq (y :: t) (by simp)
    rw [List.length_append]
    simp only [List.length_cons] at h2 ⊢
    omega

theorem buildChunks_length (itemss : List (List ChunkItem)) :
    (buildChunks itemss).length = itemss.length := by
  simp [buildChunks]

theorem buildChunks_append_single (itemss : List (List ChunkItem)) (b : List ChunkItem) :
    buildChunks (itemss ++ [b]) =
      buildChunks itemss ++ [finalize_chunk itemss.length b] := by
  simp [buildChunks, List.enum_append, List.enumFrom]

theorem includedPairs_nil : includedPairs [] = [] := rfl

theorem includedPairs_cons_included (idx : Nat) (msg : TraceMessage)
    (rem : List (Nat × TraceMessage))
    (h : (normalize_text (message_to_index_text msg).2).isEmpty = false) :
    includedPairs ((idx, msg) :: rem) = idx :: includedPairs rem := by
  have h' : normalize_text (message_to_index_text msg).2 ≠ [] := by
    intro he
    rw [he] at h
    simp at h
  simp [includedPairs, List.filter_cons, h']

theorem includedPairs_cons_excluded (idx : Nat) (msg : TraceMessage)
    (rem : List (Nat × TraceMessage))
    (h : (normalize_text (message_to_index_text msg).2).isEmpty = true) :
    includedPairs ((idx, msg) :: rem) = includedPairs rem := by
  have h' : normalize_text (message_to_index_text msg).2 = [] := by
    cases hn : normalize_text (message_to_index_text msg).2 with
    | nil => rfl
    | cons a as => rw [hn] at h; simp at h
  simp [includedPairs, List.filter_cons, h']


theorem isEmpty_true_iff (l : List ChunkItem) : l.isEmpty = true ↔ l = [] := by
  cases l <;> simp

theorem deriveLoop_post (rem : List (Nat × TraceMessage)) : ∀ (st : ChunkState)
    (pr : List Nat), deriveLoopInv pr st →
    deriveLoopPost (pr ++ includedPairs rem) (deriveLoop rem st) := by
  induction rem with
  | nil =>
    intro st pr hInv
    obtain ⟨itemss, hout, hne, hbd, hcov, _, hlen2, htr⟩ := hInv
    rw [deriveLoop, includedPairs_nil, List.append_nil]
    exact ⟨itemss, hout, hne, hbd, hcov ▸ List.prefix_refl _, fun _ => hcov, hlen2⟩
  | cons p rest ih =>
    obtain ⟨idx, msg⟩ := p
    intro st pr hInv
    rw [deriveLoop]
    by_cases h0 : (normalize_text (message_to_index_text msg).2).isEmpty = true
    · rw [if_pos h0, includedPairs_cons_excluded _ _ _ h0]
      exact ih st pr hInv
    · have h0' : (normalize_text (message_to_index_text msg).2).isEmpty = false :=
        Bool.eq_false_iff.mpr h0
      rw [if_neg h0, includedPairs_cons_included _ _ _ h0']
      obtain ⟨itemss, hout, hne, hbd, hcov, hlen1, hlen2, htr⟩ := hInv
      set T := truncate_chars (normalize_text (message_to_index_text msg).2)
        CHUNK_TEXT_MAX_CHARS with hT
      set r := (message_to_index_text msg).1 with hr
      have htlen : T.length ≤ CHUNK_TEXT_MAX_CHARS := truncate_chars_length_le _ _
      have happ : pr ++ idx :: includedPairs rest =
          (pr ++ [idx]) ++ includedPairs rest := by simp
      by_cases hie : st.current.isEmpty = true
      · have hcur : st.current = [] := (isEmpty_true_iff _).mp hie
        simp only [hcur, List.isEmpty_nil, Bool.true_eq_false, false_and, if_false,
          eq_self_iff_true, if_true, List.nil_append, ite_true, ite_false]
        rw [happ]
        refine ih _ (pr ++ [idx]) ⟨itemss, hout, hne, hbd, ?_, ?_, ?_, htr⟩
        · show (List.map chunkItemsIdxs itemss).flatten ++
            chunkItemsIdxs [(idx, T, r)] = pr ++ [idx]
          rw [hcur, chunkItemsIdxs, List.map_nil, List.append_nil] at hcov
          simp [chunkItemsIdxs, hcov]
        · show pieceBudget [(idx, T, r)] ≤ st.currentLen + T.length
          rw [pieceBudget_singleton]
          exact Nat.le_add_left _ _
        · show pieceBudget [(idx, T, r)] ≤ CHUNK_TEXT_MAX_CHARS
          rw [pieceBudget_singleton]
          exact htlen
      · have hie' : st.current.isEmpty = false := Bool.eq_false_iff.mpr hie
        have hne' : st.current ≠ [] := fun hc => hie ((isEmpty_true_iff _).mpr hc)
        simp only [hie', Bool.false_eq_true, if_false, eq_self_iff_true, true_and,
          ite_true, ite_false]
        by_cases hov : CHUNK_TEXT_MAX_CHARS < st.currentLen + (2 + T.length)
        · rw [if_pos hov]
          by_cases hbud : MAX_CHUNKS_PER_SESSION ≤ st.out.length
          · rw [if_pos hbud]
            refine ⟨itemss, hout, hne, hbd, ?_, ?_, hlen2⟩
            · exact hcov ▸ List.prefix_append pr (idx :: includedPairs rest)
            · intro hcontra
              simp at hcontra
          · rw [if_neg hbud, happ]
            refine ih _ (pr ++ [idx])
              ⟨itemss ++ [st.current], ?_, ?_, ?_, ?_, ?_, ?_, htr⟩
            · show st.out ++ [finalize_chunk st.out.length st.current] = _
              rw [hout, buildChunks_append_single, buildChunks_length]
            · intro b hb
              rcases List.mem_append.mp hb with hb | hb
              · exact hne b hb
              · rw [List.mem_singleton.mp hb]; exact hne'
            · intro b hb
              rcases List.mem_append.mp hb with hb | hb
              · exact hbd b hb
              · rw [List.mem_singleton.mp hb]; exact hlen2
            · show (List.map chunkItemsIdxs (itemss ++ [st.current])).flatten ++
                chunkItemsIdxs [(idx, T, r)] = pr ++ [idx]
              rw [List.map_append, List.flatten_append]
              simp only [List.map_cons, List.map_nil, List.flatten_cons, List.flatten_nil,
                List.append_nil]
              rw [hcov]
              simp [chunkItemsIdxs]
            · show pieceBudget [(idx, T, r)] ≤ 2 + T.length
              rw [pieceBudget_singleton]
              exact Nat.le_add_left _ _
            · show pieceBudget [(idx, T, r)] ≤ CHUNK_TEXT_MAX_CHARS
              rw [pieceBudget_singleton]
              exact htlen
        · rw [if_neg hov, happ]
          have hle : st.currentLen + (2 + T.length) ≤ CHUNK_TEXT_MAX_CHARS :=
            Nat.le_of_not_lt hov
          have hjlen : pieceBudget (st.current ++ [(idx, T, r)]) =
              pieceBudget st.current + 2 + T.length :=
            pieceBudget_append_single st.current hne' _
          refine ih _ (pr ++ [idx]) ⟨itemss, hout, hne, hbd, ?_, ?_, ?_, htr⟩
          · show (List.map chunkItemsIdxs itemss).flatten ++
              chunkItemsIdxs (st.current ++ [(idx, T, r)]) = pr ++ [idx]
            rw [chunkItemsIdxs, List.map_append, ← List.append_assoc]
            rw [← chunkItemsIdxs, hcov]
            simp [chunkItemsIdxs]
          · show pieceBudget (st.current ++ [(idx, T, r)]) ≤
              st.currentLen + (2 + T.length)
            rw [hjlen]
            omega
          · show pieceBudget (st.current ++ [(idx, T, r)]) ≤ CHUNK_TEXT_MAX_CHARS
            rw [hjlen]
            omega


theorem derive_chunks_post (rid : Int) (sid : String) (msgs : List TraceMessage) :
    ∃ itemss : List (List ChunkItem),
      (derive_chunks rid sid msgs).chunks = buildChunks itemss ∧
      (∀ b ∈ itemss, b ≠ []) ∧
      (∀ b ∈ itemss, pieceBudget b ≤ CHUNK_TEXT_MAX_CHARS) ∧
      (itemss.map chunkItemsIdxs).flatten <+: includedIndices msgs ∧
      ((derive_chunks rid sid msgs).truncated = false →
        (itemss.map chunkItemsIdxs).flatten = includedIndices msgs) := by
  have hinit : deriveLoopInv [] ⟨[], false, [], 0⟩ :=
    ⟨[], rfl, by simp, by simp, rfl, by simp [pieceBudget, chunkItemsIdxs],
      by simp [pieceBudget], rfl⟩
  have hpost := deriveLoop_post msgs.enum ⟨[], false, [], 0⟩ [] hinit
  rw [List.nil_append] at hpost
  obtain ⟨itemss, hout, hne, hbd, hpre, hfull, hcur⟩ := hpost
  rw [derive_chunks]
  set st := deriveLoop msgs.enum ⟨[], false, [], 0⟩ with hst
  by_cases hc1 : st.current.isEmpty = false ∧ st.out.length < MAX_CHUNKS_PER_SESSION
  · rw [if_pos hc1]
    have hcurne : st.current ≠ [] := by
      intro hnil
      rw [hnil] at hc1
      exact absurd hc1.1 (by simp)
    refine ⟨itemss ++ [st.current], ?_, ?_, ?_, ?_, ?_⟩
    · show st.out ++ [finalize_chunk st.out.length st.current] =
        buildChunks (itemss ++ [st.current])
      rw [hout, buildChunks_append_single, buildChunks_length]
    · intro b hb
      rcases List.mem_append.mp hb with hb | hb
      · exact hne b hb
      · rw [List.mem_singleton.mp hb]; exact hcurne
    · intro b hb
      rcases List.mem_append.mp hb with hb | hb
      · exact hbd b hb
      · rw [List.mem_singleton.mp hb]; exact hcur
    · rw [List.map_append, List.flatten_append]
      simp only [List.map_cons, List.map_nil, List.flatten_cons, List.flatten_nil,
        List.append_nil]
      exact hpre
    · intro htr
      rw [List.map_append, List.flatten_append]
      simp only [List.map_cons, List.map_nil, List.flatten_cons, List.flatten_nil,
        List.append_nil]
      exact hfull htr
  · rw [if_neg hc1]
    by_cases hc2 : st.current.isEmpty = false
    · rw [if_pos hc2]
      refine ⟨itemss, hout, hne, hbd, ?_, ?_⟩
      · exact (List.prefix_append _ _).trans hpre
      · intro hcontra
        simp at hcontra
    · rw [if_neg hc2]
      have hcnil : st.current = [] := by
        cases hc : st.current with
        | nil => rfl
        | cons a as => rw [hc] at hc2; simp at hc2
      rw [hcnil, chunkItemsIdxs, List.map_nil, List.append_nil] at hpre hfull
      exact ⟨itemss, hout, hne, hbd, hpre, hfull⟩


theorem pairwise_head?_le : ∀ (l : List Nat), l.Pairwise (· < ·) →
    ∀ m, l.head? = some m → ∀ x ∈ l, m ≤ x
  | [], _, m, h => by simp at h
  | a :: t, hp, m, h => by
    rw [List.head?_cons, Option.some.injEq] at h
    subst h
    intro x hx
    rcases List.mem_cons.mp hx with h | h
    · exact h ▸ Nat.le_refl _
    · exact Nat.le_of_lt (List.rel_of_pairwise_cons hp h)

theorem pairwise_le_getLast? : ∀ (l : List Nat), l.Pairwise (· < ·) →
    ∀ m, l.getLast? = some m → ∀ x ∈ l, x ≤ m
  | [], _, m, h => by simp at h
  | [a], _, m, h => by
    intro x hx
    simp at h hx
    omega
  | a :: b :: t, hp, m, h => by
    rw [List.getLast?_cons_cons] at h
    intro x hx
    rcases List.mem_cons.mp hx with h1 | h1
    · subst h1
      obtain ⟨hne2, heq⟩ := List.mem_getLast?_eq_getLast (show m ∈ (b :: t).getLast? from h)
      have hm : m ∈ b :: t := by rw [heq]; exact List.getLast_mem hne2
      exact Nat.le_of_lt (List.rel_of_pairwise_cons hp hm)
    · exact pairwise_le_getLast? (b :: t) hp.of_cons m h x h1

theorem mem_enumFrom_snd {α : Type} : ∀ (l : List α) (n : Nat) (p : Nat × α),
    p ∈ List.enumFrom n l → p.2 ∈ l
  | [], _, _, h => by simp [List.enumFrom] at h
  | a :: t, n, p, h => by
    rw [List.enumFrom] at h
    rcases List.mem_cons.mp h with h | h
    · rw [h]
      exact List.mem_cons_self _ _
    · exact List.mem_cons_of_mem _ (mem_enumFrom_snd t (n + 1) p h)

theorem mem_enumFrom_of_mem {α : Type} : ∀ (l : List α) (n : Nat) (a : α),
    a ∈ l → ∃ i, (i, a) ∈ List.enumFrom n l
  | [], _, _, h => absurd h (List.not_mem_nil _)
  | b :: t, n, a, h => by
    rcases List.mem_cons.mp h with h | h
    · exact ⟨n, by rw [List.enumFrom, h]; exact List.mem_cons_self _ _⟩
    · obtain ⟨i, hi⟩ := mem_enumFrom_of_mem t (n + 1) a h
      exact ⟨i, by rw [List.enumFrom]; exact List.mem_cons_of_mem _ hi⟩

theorem le_fst_of_mem_enumFrom {α : Type} : ∀ (l : List α) (m : Nat) (q : Nat × α),
    q ∈ List.enumFrom m l → m ≤ q.1
  | [], _, _, h => by simp [List.enumFrom] at h
  | a :: t, m, q, h => by
    rw [List.enumFrom] at h
    rcases List.mem_cons.mp h with h | h
    · rw [h]
    · exact Nat.le_of_succ_le (le_fst_of_mem_enumFrom t (m + 1) q h)

theorem pairwise_fst_enumFrom {α : Type} : ∀ (l : List α) (n : Nat),
    (List.enumFrom n l).Pairwise (fun p q => p.1 < q.1)
  | [], n => by simp [List.enumFrom]
  | a :: t, n => by
    rw [List.enumFrom]
    refine List.Pairwise.cons ?_ (pairwise_fst_enumFrom t (n + 1))
    intro q hq
    exact Nat.lt_of_succ_le (le_fst_of_mem_enumFrom t (n + 1) q hq)

theorem pairwise_enumFrom_of_pairwise {α : Type} {S : α → α → Prop} :
    ∀ (l : List α) (n : Nat), l.Pairwise S →
      (List.enumFrom n l).Pairwise (fun p q => S p.2 q.2)
  | [], n, _ => by simp [List.enumFrom]
  | a :: t, n, hp => by
    rw [List.enumFrom]
    refine List.Pairwise.cons ?_ (pairwise_enumFrom_of_pairwise t (n + 1) hp.of_cons)
    intro q hq
    exact List.rel_of_pairwise_cons hp (mem_enumFrom_snd t (n + 1) q hq)

theorem includedIndices_pairwise (msgs : List TraceMessage) :
    (includedIndices msgs).Pairwise (· < ·) := by
  rw [includedIndices, includedPairs]
  refine List.pairwise_map.mpr ?_
  refine List.Pairwise.sublist (List.filter_sublist _) ?_
  show (List.enumFrom 0 msgs).Pairwise _
  exact pairwise_fst_enumFrom msgs 0

theorem blocks_pairwise : ∀ (itemss : List (List ChunkItem)) (E : List Nat),
    E.Pairwise (· < ·) → List.Sublist (itemss.map chunkItemsIdxs).flatten E →
    itemss.Pairwise (fun b b' => ∀ x ∈ chunkItemsIdxs b, ∀ y ∈ chunkItemsIdxs b', x < y)
  | [], _, _, _ => List.Pairwise.nil
  | b :: rest, E, hE, hsub => by
    rw [List.map_cons, List.flatten_cons] at hsub
    have hpw : (chunkItemsIdxs b ++ (rest.map chunkItemsIdxs).flatten).Pairwise (· < ·) :=
      List.Pairwise.sublist hsub hE
    have hparts := List.pairwise_append.mp hpw
    refine List.Pairwise.cons ?_
      (blocks_pairwise rest ((rest.map chunkItemsIdxs).flatten) hparts.2.1
        (List.Sublist.refl _))
    intro b' hb' x hx y hy
    exact hparts.2.2 x hx y
      (List.mem_flatten.mpr ⟨chunkItemsIdxs b', List.mem_map_of_mem _ hb', hy⟩)

theorem chunkItemsIdxs_getLast? (b : List ChunkItem) :
    (chunkItemsIdxs b).getLast? = b.getLast?.map (·.1) := by
  rw [chunkItemsIdxs, List.getLast?_map]

theorem finalize_chunk_index_eq (i : Nat) (b : List ChunkItem) :
    (finalize_chunk i b).chunk_index = i := rfl

theorem finalize_chunk_text_eq (i : Nat) (b : List ChunkItem) :
    (finalize_chunk i b).text = joinPieces b := rfl

theorem finalize_chunk_start (i : Nat) (it : ChunkItem) (its : List ChunkItem) :
    (finalize_chunk i (it :: its)).start_message_index = it.1 := rfl

theorem finalize_chunk_end (i : Nat) (it : ChunkItem) (its : List ChunkItem) :
    (chunkItemsIdxs (it :: its)).getLast? =
      some ((finalize_chunk i (it :: its)).end_message_index) := by
  obtain ⟨l, hl⟩ : ∃ l, (it :: its).getLast? = some l :=
    ⟨(it :: its).getLast (by simp), List.getLast?_eq_getLast_of_ne_nil (by simp)⟩
  have hend : (finalize_chunk i (it :: its)).end_message_index = l.1 := by
    simp only [finalize_chunk, hl, Option.map_some', Option.getD_some]
  rw [chunkItemsIdxs_getLast?, hl, hend]
  rfl


theorem chunkItemsIdxs_cons (it : ChunkItem) (its : List ChunkItem) :
    chunkItemsIdxs (it :: its) = it.1 :: chunkItemsIdxs its := rfl

theorem mem_of_getLast?_eq {α : Type} {l : List α} {m : α} (h : l.getLast? = some m) :
    m ∈ l := by
  obtain ⟨hne2, heq⟩ := List.mem_getLast?_eq_getLast (show m ∈ l.getLast? from h)
  rw [heq]
  exact List.getLast_mem hne2

/-- C7 amended: for every repo id, session id and message list, the chunks of
`derive_chunks` have consecutive indices starting at 0, per-chunk message
ranges with endpoints among the included (non-empty-normalized) message
indices, start ≤ end, pairwise strictly increasing and disjoint ranges —
and, whenever `truncated = false`, the ranges also cover every included
message index.  The per-chunk size bound is the budgeted one: the text has
at most 4000 characters plus 2 for every piece beyond the first (the code
budgets 2 per separator but pushes 4 characters), stated here against the
count of included indices inside the chunk's range.  Full coverage fails
for truncated sessions and the flat 4000-character bound fails for
multi-piece chunks — both exhibited by the counterexample. -/
theorem claim_C7_amended (rid : Int) (sid : String) (msgs : List TraceMessage) :
    ((derive_chunks rid sid msgs).chunks.map (fun c => c.chunk_index) =
      List.range (derive_chunks rid sid msgs).chunks.length) ∧
    (∀ c ∈ (derive_chunks rid sid msgs).chunks,
      c.start_message_index ≤ c.end_message_index ∧
      c.start_message_index ∈ includedIndices msgs ∧
      c.end_message_index ∈ includedIndices msgs ∧
      c.text.length + 2 ≤ CHUNK_TEXT_MAX_CHARS +
        2 * ((includedIndices msgs).filter
          (fun x => c.start_message_index ≤ x ∧ x ≤ c.end_message_index)).length) ∧
    (derive_chunks rid sid msgs).chunks.Pairwise
      (fun c c' => c.end_message_index < c'.start_message_index) ∧
    ((derive_chunks rid sid msgs).truncated = false →
      ∀ x ∈ includedIndices msgs, ∃ c ∈ (derive_chunks rid sid msgs).chunks,
        c.start_message_index ≤ x ∧ x ≤ c.end_message_index) := by
  obtain ⟨itemss, hchunks, hne, hbd, hpre, hfull⟩ := derive_chunks_post rid sid msgs
  have hE : (includedIndices msgs).Pairwise (· < ·) := includedIndices_pairwise msgs
  have hsub : List.Sublist (itemss.map chunkItemsIdxs).flatten (includedIndices msgs) :=
    hpre.sublist
  have hblocks := blocks_pairwise itemss (includedIndices msgs) hE hsub
  refine ⟨?_, ?_, ?_, ?_⟩
  · rw [hchunks, buildChunks_length, buildChunks, List.map_map]
    have hfun : ((fun c => c.chunk_index) ∘ fun p : Nat × List ChunkItem =>
        finalize_chunk p.1 p.2) = Prod.fst := funext fun p => rfl
    rw [hfun, List.enum_map_fst]
  · intro c hc
    rw [hchunks] at hc
    obtain ⟨p, hp, hcf⟩ := List.mem_map.mp hc
    obtain ⟨i, b⟩ := p
    have hbmem : b ∈ itemss := mem_enumFrom_snd itemss 0 (i, b) hp
    have hbsub : List.Sublist (chunkItemsIdxs b) (includedIndices msgs) :=
      (List.sublist_flatten_of_mem (List.mem_map_of_mem _ hbmem)).trans hsub
    have hpwb : (chunkItemsIdxs b).Pairwise (· < ·) := List.Pairwise.sublist hbsub hE
    obtain ⟨it, its, rfl⟩ : ∃ it its, b = it :: its := by
      cases b with
      | nil => exact absurd rfl (hne _ hbmem)
      | cons x xs => exact ⟨x, xs, rfl⟩
    have hst : c.start_message_index = it.1 := by rw [← hcf]; rfl
    have hlast := finalize_chunk_end i it its
    rw [hcf] at hlast
    have hstmem : c.start_message_index ∈ chunkItemsIdxs (it :: its) := by
      rw [hst, chunkItemsIdxs_cons]
      exact List.mem_cons_self _ _
    have hendmem : c.end_message_index ∈ chunkItemsIdxs (it :: its) :=
      mem_of_getLast?_eq hlast
    refine ⟨?_, hbsub.subset hstmem, hbsub.subset hendmem, ?_⟩
    · exact pairwise_le_getLast? _ hpwb _ hlast _ hstmem
    · have hall : ∀ x ∈ chunkItemsIdxs (it :: its),
          c.start_message_index ≤ x ∧ x ≤ c.end_message_index := by
        intro x hx
        refine ⟨?_, pairwise_le_getLast? _ hpwb _ hlast x hx⟩
        rw [hst]
        exact pairwise_head?_le _ hpwb it.1 (by rw [chunkItemsIdxs_cons]; rfl) x hx
      have hfeq : (chunkItemsIdxs (it :: its)).filter
          (fun x => c.start_message_index ≤ x ∧ x ≤ c.end_message_index) =
          chunkItemsIdxs (it :: its) :=
        List.filter_eq_self.mpr (fun a ha => decide_eq_true (hall a ha))
      have hsubf : List.Sublist (chunkItemsIdxs (it :: its))
          ((includedIndices msgs).filter
            (fun x => c.start_message_index ≤ x ∧ x ≤ c.end_message_index)) := by
        rw [← hfeq]
        exact List.Sublist.filter _ hbsub
      have hcount : (it :: its).length ≤
          ((includedIndices msgs).filter
            (fun x => c.start_message_index ≤ x ∧ x ≤ c.end_message_index)).length := by
        have hl := hsubf.length_le
        rw [chunkItemsIdxs, List.length_map] at hl
        exact hl
      have htext : c.text = joinPieces (it :: its) := by
        rw [← hcf, finalize_chunk_text_eq]
      have hlen_eq : (joinPieces (it :: its)).length =
          pieceBudget (it :: its) + 2 * ((it :: its).length - 1) :=
        joinPieces_length_eq _ (by simp)
      have hbud : pieceBudget (it :: its) ≤ CHUNK_TEXT_MAX_CHARS := hbd _ hbmem
      rw [htext, hlen_eq]
      simp only [List.length_cons] at hcount ⊢
      omega
  · rw [hchunks, buildChunks]
    refine List.pairwise_map.mpr ?_
    have henum := pairwise_enumFrom_of_pairwise itemss 0 hblocks
    refine List.Pairwise.imp_of_mem ?_ henum
    intro p q hpmem hqmem hS
    have hpb : p.2 ∈ itemss := mem_enumFrom_snd _ _ _ hpmem
    have hqb : q.2 ∈ itemss := mem_enumFrom_snd _ _ _ hqmem
    obtain ⟨i₁, b₁⟩ := p
    obtain ⟨i₂, b₂⟩ := q
    obtain ⟨it, its, rfl⟩ : ∃ it its, b₁ = it :: its := by
      cases b₁ with
      | nil => exact absurd rfl (hne _ hpb)
      | cons x xs => exact ⟨x, xs, rfl⟩
    obtain ⟨it', its', rfl⟩ : ∃ it its, b₂ = it :: its := by
      cases b₂ with
      | nil => exact absurd rfl (hne _ hqb)
      | cons x xs => exact ⟨x, xs, rfl⟩
    have hlast := finalize_chunk_end i₁ it its
    have hendmem : (finalize_chunk i₁ (it :: its)).end_message_index ∈
        chunkItemsIdxs (it :: its) := mem_of_getLast?_eq hlast
    have hstart : (finalize_chunk i₂ (it' :: its')).start_message_index = it'.1 :=
      finalize_chunk_start _ _ _
    rw [hstart]
    exact hS _ hendmem it'.1 (by rw [chunkItemsIdxs_cons]; exact List.mem_cons_self _ _)
  · intro htr x hx
    rw [← hfull htr] at hx
    obtain ⟨l, hl, hxl⟩ := List.mem_flatten.mp hx
    obtain ⟨b, hbmem, rfl⟩ := List.mem_map.mp hl
    obtain ⟨i, hib⟩ := mem_enumFrom_of_mem itemss 0 b hbmem
    have hbsub : List.Sublist (chunkItemsIdxs b) (includedIndices msgs) :=
      (List.sublist_flatten_of_mem (List.mem_map_of_mem _ hbmem)).trans hsub
    have hpwb : (chunkItemsIdxs b).Pairwise (· < ·) := List.Pairwise.sublist hbsub hE
    obtain ⟨it, its, rfl⟩ : ∃ it its, b = it :: its := by
      cases b with
      | nil => exact absurd rfl (hne _ hbmem)
      | cons x xs => exact ⟨x, xs, rfl⟩
    refine ⟨finalize_chunk i (it :: its), ?_, ?_, ?_⟩
    · rw [hchunks, buildChunks]
      exact List.mem_map.mpr ⟨(i, it :: its),
        show (i, it :: its) ∈ List.enumFrom 0 itemss from hib, rfl⟩
    · rw [finalize_chunk_start]
      exact pairwise_head?_le _ hpwb it.1 (by rw [chunkItemsIdxs_cons]; rfl) x hxl
    · exact pairwise_le_getLast? _ hpwb _ (finalize_chunk_end i it its) x hxl


theorem c7_msg_eq : message_to_index_text c7Msg = ("user", c7Text) := rfl

theorem c7_text_len : c7Text.length = 2008 := by
  rw [c7Text, List.length_append, List.length_replicate]
  rfl

theorem c7_text_norm : normalize_text c7Text = c7Text := by
  show normalize_text ("[USER]\\n".toList ++ List.replicate (1999 + 1) 'a') = _
  exact normalize_tag_replicate _ _ _ '[' (by decide) (by decide) (by decide)
    (by decide) (by decide)

theorem c7_text_ne : c7Text.isEmpty = false :=
  list_isEmpty_false_of_length (n := 2007) c7_text_len

theorem c7_text_trunc : truncate_chars c7Text CHUNK_TEXT_MAX_CHARS = c7Text := by
  rw [truncate_chars, if_pos (by rw [c7_text_len]; norm_num [CHUNK_TEXT_MAX_CHARS])]


theorem deriveLoop_cons_excluded (idx : Nat) (msg : TraceMessage)
    (rest : List (Nat × TraceMessage)) (st : ChunkState)
    (h0 : (normalize_text (message_to_index_text msg).2).isEmpty = true) :
    deriveLoop ((idx, msg) :: rest) st = deriveLoop rest st := by
  rw [deriveLoop, if_pos h0]

theorem deriveLoop_cons_newcur (idx : Nat) (msg : TraceMessage)
    (rest : List (Nat × TraceMessage)) (st : ChunkState)
    (h0 : (normalize_text (message_to_index_text msg).2).isEmpty = false)
    (hcur : st.current.isEmpty = true) :
    deriveLoop ((idx, msg) :: rest) st = deriveLoop rest
      ⟨st.out, st.truncated,
        st.current ++ [(idx, truncate_chars (normalize_text (message_to_index_text msg).2)
          CHUNK_TEXT_MAX_CHARS, (message_to_index_text msg).1)],
        st.currentLen + (truncate_chars (normalize_text (message_to_index_text msg).2)
          CHUNK_TEXT_MAX_CHARS).length⟩ := by
  rw [deriveLoop, if_neg (Bool.eq_false_iff.mp h0 ∘ fun h => h)]
  simp only [hcur, Bool.true_eq_false, false_and, if_false, ite_false, ite_true,
    eq_self_iff_true, if_true]

theorem deriveLoop_cons_fit (idx : Nat) (msg : TraceMessage)
    (rest : List (Nat × TraceMessage)) (st : ChunkState)
    (h0 : (normalize_text (message_to_index_text msg).2).isEmpty = false)
    (hcur : st.current.isEmpty = false)
    (hle : st.currentLen + (2 + (truncate_chars (normalize_text (message_to_index_text msg).2)
      CHUNK_TEXT_MAX_CHARS).length) ≤ CHUNK_TEXT_MAX_CHARS) :
    deriveLoop ((idx, msg) :: rest) st = deriveLoop rest
      ⟨st.out, st.truncated,
        st.current ++ [(idx, truncate_chars (normalize_text (message_to_index_text msg).2)
          CHUNK_TEXT_MAX_CHARS, (message_to_index_text msg).1)],
        st.currentLen + (2 + (truncate_chars (normalize_text (message_to_index_text msg).2)
          CHUNK_TEXT_MAX_CHARS).length)⟩ := by
  rw [deriveLoop, if_neg (Bool.eq_false_iff.mp h0 ∘ fun h => h)]
  simp only [hcur, Bool.false_eq_true, if_false, ite_false, eq_self_iff_true, true_and]
  rw [if_neg (Nat.not_lt.mpr hle)]

theorem deriveLoop_cons_flush (idx : Nat) (msg : TraceMessage)
    (rest : List (Nat × TraceMessage)) (st : ChunkState)
    (h0 : (normalize_text (message_to_index_text msg).2).isEmpty = false)
    (hcur : st.current.isEmpty = false)
    (hov : CHUNK_TEXT_MAX_CHARS < st.currentLen +
      (2 + (truncate_chars (normalize_text (message_to_index_text msg).2)
        CHUNK_TEXT_MAX_CHARS).length))
    (hbud : st.out.length < MAX_CHUNKS_PER_SESSION) :
    deriveLoop ((idx, msg) :: rest) st = deriveLoop rest
      ⟨st.out ++ [finalize_chunk st.out.length st.current], st.truncated,
        [(idx, truncate_chars (normalize_text (message_to_index_text msg).2)
          CHUNK_TEXT_MAX_CHARS, (message_to_index_text msg).1)],
        2 + (truncate_chars (normalize_text (message_to_index_text msg).2)
          CHUNK_TEXT_MAX_CHARS).length⟩ := by
  rw [deriveLoop, if_neg (Bool.eq_false_iff.mp h0 ∘ fun h => h)]
  simp only [hcur, Bool.false_eq_true, if_false, ite_false, eq_self_iff_true, true_and]
  rw [if_pos hov, if_neg (Nat.not_le.mpr hbud)]

theorem deriveLoop_cons_stop (idx : Nat) (msg : TraceMessage)
    (rest : List (Nat × TraceMessage)) (st : ChunkState)
    (h0 : (normalize_text (message_to_index_text msg).2).isEmpty = false)
    (hcur : st.current.isEmpty = false)
    (hov : CHUNK_TEXT_MAX_CHARS < st.currentLen +
      (2 + (truncate_chars (normalize_text (message_to_index_text msg).2)
        CHUNK_TEXT_MAX_CHARS).length))
    (hbud : MAX_CHUNKS_PER_SESSION ≤ st.out.length) :
    deriveLoop ((idx, msg) :: rest) st = { st with truncated := true } := by
  rw [deriveLoop, if_neg (Bool.eq_false_iff.mp h0 ∘ fun h => h)]
  simp only [hcur, Bool.false_eq_true, if_false, ite_false, eq_self_iff_true, true_and]
  rw [if_pos hov, if_pos hbud]


theorem c7_norm_ne : (normalize_text (message_to_index_text c7Msg).2).isEmpty = false := by
  rw [c7_msg_eq]
  show (normalize_text c7Text).isEmpty = false
  rw [c7_text_norm]
  exact c7_text_ne

theorem c7_trunc_full : truncate_chars (normalize_text (message_to_index_text c7Msg).2)
    CHUNK_TEXT_MAX_CHARS = c7Text := by
  rw [c7_msg_eq]
  show truncate_chars (normalize_text c7Text) CHUNK_TEXT_MAX_CHARS = c7Text
  rw [c7_text_norm, c7_text_trunc]

theorem c7_role : (message_to_index_text c7Msg).1 = "user" := by
  rw [c7_msg_eq]

theorem c7b_msg_eq : message_to_index_text c7bMsg = ("user", c7bText) := rfl

theorem c7b_text_len : c7bText.length = 1999 := by
  rw [c7bText, List.length_append, List.length_replicate]
  rfl

theorem c7b_text_norm : normalize_text c7bText = c7bText := by
  show normalize_text ("[USER]\\n".toList ++ List.replicate (1990 + 1) 'a') = _
  exact normalize_tag_replicate _ _ _ '[' (by decide) (by decide) (by decide)
    (by decide) (by decide)

theorem c7b_text_ne : c7bText.isEmpty = false :=
  list_isEmpty_false_of_length (n := 1998) c7b_text_len

theorem c7b_text_trunc : truncate_chars c7bText CHUNK_TEXT_MAX_CHARS = c7bText := by
  rw [truncate_chars, if_pos (by rw [c7b_text_len]; norm_num [CHUNK_TEXT_MAX_CHARS])]

theorem c7b_norm_ne :
    (normalize_text (message_to_index_text c7bMsg).2).isEmpty = false := by
  rw [c7b_msg_eq]
  show (normalize_text c7bText).isEmpty = false
  rw [c7b_text_norm]
  exact c7b_text_ne

theorem c7b_trunc_full :
    truncate_chars (normalize_text (message_to_index_text c7bMsg).2)
      CHUNK_TEXT_MAX_CHARS = c7bText := by
  rw [c7b_msg_eq]
  show truncate_chars (normalize_text c7bText) CHUNK_TEXT_MAX_CHARS = c7bText
  rw [c7b_text_norm, c7b_text_trunc]

theorem c7b_role : (message_to_index_text c7bMsg).1 = "user" := by
  rw [c7b_msg_eq]

theorem c7b_run :
    derive_chunks 1 "s2" [c7bMsg, c7bMsg] =
      ⟨[finalize_chunk 0 [(0, c7bText, "user"), (1, c7bText, "user")]], false⟩ := by
  have h1 : deriveLoop (List.enumFrom 0 [c7bMsg, c7bMsg]) ⟨[], false, [], 0⟩ =
      ⟨[], false, [(0, c7bText, "user")] ++ [(1, c7bText, "user")],
        c7bText.length + (2 + c7bText.length)⟩ := by
    have henum : List.enumFrom 0 [c7bMsg, c7bMsg] =
        (0, c7bMsg) :: (1, c7bMsg) :: [] := rfl
    rw [henum]
    rw [deriveLoop_cons_newcur 0 c7bMsg ((1, c7bMsg) :: []) ⟨[], false, [], 0⟩
      c7b_norm_ne rfl]
    rw [c7b_trunc_full, c7b_role]
    simp only [List.nil_append, Nat.zero_add]
    rw [deriveLoop_cons_fit 1 c7bMsg []
      ⟨[], false, [(0, c7bText, "user")], c7bText.length⟩ c7b_norm_ne rfl
      (by rw [c7b_trunc_full, c7b_text_len]; norm_num [CHUNK_TEXT_MAX_CHARS])]
    rw [c7b_trunc_full, c7b_role, deriveLoop]
  rw [derive_chunks,
    show ([c7bMsg, c7bMsg] : List TraceMessage).enum =
      List.enumFrom 0 [c7bMsg, c7bMsg] from rfl, h1]
  rw [if_pos ⟨rfl, by norm_num [MAX_CHUNKS_PER_SESSION]⟩]
  rfl

theorem c7Mem : ∀ (n i x : Nat), i ≤ x → x < i + n →
    x ∈ includedPairs (List.enumFrom i (List.replicate n c7Msg))
  | 0, i, x, h1, h2 => absurd h2 (by omega)
  | n + 1, i, x, h1, h2 => by
    rw [List.replicate_succ, List.enumFrom,
      includedPairs_cons_included _ _ _ c7_norm_ne]
    rcases Nat.eq_or_lt_of_le h1 with h | h
    · exact h ▸ List.mem_cons_self _ _
    · exact List.mem_cons_of_mem _ (c7Mem n (i + 1) x h (by omega))

theorem c7Loop : ∀ (n j c : Nat) (out : List DerivedChunk),
    out.length = j → 2000 ≤ c → j ≤ 200 →
    (∀ chk ∈ out, chk.end_message_index < 200) →
    (deriveLoop (List.enumFrom (j + 1) (List.replicate n c7Msg))
        ⟨out, false, [(j, c7Text, "user")], c⟩).out.length = min (j + n) 200 ∧
    (deriveLoop (List.enumFrom (j + 1) (List.replicate n c7Msg))
        ⟨out, false, [(j, c7Text, "user")], c⟩).current.isEmpty = false ∧
    (∀ chk ∈ (deriveLoop (List.enumFrom (j + 1) (List.replicate n c7Msg))
        ⟨out, false, [(j, c7Text, "user")], c⟩).out, chk.end_message_index < 200)
  | 0, j, c, out, hlen, hc, hj, hends => by
    rw [List.replicate, List.enumFrom, deriveLoop]
    refine ⟨?_, rfl, hends⟩
    show out.length = min (j + 0) 200
    omega
  | n + 1, j, c, out, hlen, hc, hj, hends => by
    rw [List.replicate_succ, List.enumFrom]
    have hov : CHUNK_TEXT_MAX_CHARS < c +
        (2 + (truncate_chars (normalize_text (message_to_index_text c7Msg).2)
          CHUNK_TEXT_MAX_CHARS).length) := by
      rw [c7_trunc_full, c7_text_len]
      norm_num [CHUNK_TEXT_MAX_CHARS]
      omega
    by_cases hbud : MAX_CHUNKS_PER_SESSION ≤ out.length
    · rw [deriveLoop_cons_stop (j + 1) c7Msg
        (List.enumFrom (j + 1 + 1) (List.replicate n c7Msg))
        ⟨out, false, [(j, c7Text, "user")], c⟩ c7_norm_ne rfl hov hbud]
      have hj200 : j = 200 := by
        rw [hlen] at hbud
        norm_num [MAX_CHUNKS_PER_SESSION] at hbud
        omega
      refine ⟨?_, rfl, hends⟩
      show out.length = min (j + (n + 1)) 200
      omega
    · have hbud' : out.length < MAX_CHUNKS_PER_SESSION := Nat.not_le.mp hbud
      rw [deriveLoop_cons_flush (j + 1) c7Msg
        (List.enumFrom (j + 1 + 1) (List.replicate n c7Msg))
        ⟨out, false, [(j, c7Text, "user")], c⟩ c7_norm_ne rfl hov hbud']
      have hjlt : j < 200 := by
        rw [hlen] at hbud'
        norm_num [MAX_CHUNKS_PER_SESSION] at hbud'
        omega
      rw [c7_trunc_full, c7_role, finalize_chunk_single, hlen]
      have hih := c7Loop n (j + 1) (2 + c7Text.length)
        (out ++ [⟨j, j, j, "user", c7Text⟩])
        (by rw [List.length_append, hlen]; rfl)
        (by rw [c7_text_len]; omega)
        (by omega)
        (by
          intro chk hchk
          rcases List.mem_append.mp hchk with h | h
          · exact hends chk h
          · rw [List.mem_singleton.mp h]
            exact hjlt)
      rw [show j + 1 + n = j + (n + 1) by omega] at hih
      exact hih

theorem c7_run : derive_chunks 1 "s" (List.replicate 201 c7Msg) =
      ⟨(deriveLoop (List.enumFrom 1 (List.replicate 200 c7Msg))
        ⟨[], false, [(0, c7Text, "user")], c7Text.length⟩).out, true⟩ ∧
    (∀ chk ∈ (deriveLoop (List.enumFrom 1 (List.replicate 200 c7Msg))
        ⟨[], false, [(0, c7Text, "user")], c7Text.length⟩).out,
      chk.end_message_index < 200) := by
  obtain ⟨hlen, hcur, hends⟩ := c7Loop 200 0 c7Text.length [] rfl
    (by rw [c7_text_len]; omega) (by omega) (by intro chk h; simp at h)
  have hlen' : (deriveLoop (List.enumFrom 1 (List.replicate 200 c7Msg))
      ⟨[], false, [(0, c7Text, "user")], c7Text.length⟩).out.length = 200 := by
    show (deriveLoop (List.enumFrom (0 + 1) (List.replicate 200 c7Msg))
      ⟨[], false, [(0, c7Text, "user")], c7Text.length⟩).out.length = 200
    rw [hlen]
    omega
  have hcur' : (deriveLoop (List.enumFrom 1 (List.replicate 200 c7Msg))
      ⟨[], false, [(0, c7Text, "user")], c7Text.length⟩).current.isEmpty = false := hcur
  have hends' : ∀ chk ∈ (deriveLoop (List.enumFrom 1 (List.replicate 200 c7Msg))
      ⟨[], false, [(0, c7Text, "user")], c7Text.length⟩).out,
      chk.end_message_index < 200 := hends
  have h1 : deriveLoop (List.enumFrom 0 (List.replicate 201 c7Msg)) ⟨[], false, [], 0⟩ =
      deriveLoop (List.enumFrom 1 (List.replicate 200 c7Msg))
        ⟨[], false, [(0, c7Text, "user")], c7Text.length⟩ := by
    rw [show (201 : Nat) = 200 + 1 from rfl, List.replicate_succ, List.enumFrom,
      deriveLoop_cons_newcur 0 c7Msg (List.enumFrom (0 + 1) (List.replicate 200 c7Msg))
        ⟨[], false, [], 0⟩ c7_norm_ne rfl]
    rw [c7_trunc_full, c7_role]
    simp only [List.nil_append, Nat.zero_add]
  refine ⟨?_, hends'⟩
  rw [derive_chunks]
  rw [show (List.replicate 201 c7Msg).enum = List.enumFrom 0 (List.replicate 201 c7Msg)
    from rfl, h1]
  rw [if_neg (fun hc => by
    rw [hlen'] at hc
    exact absurd hc.2 (by norm_num [MAX_CHUNKS_PER_SESSION]))]
  rw [if_pos hcur']

/-- C7 counterexample, two parts.  (1) 201 messages of 2000 characters each
force one chunk per message; the 200-chunk cap stops the loop, the summary
is truncated, and included message index 200 is covered by no chunk — the
ranges do not "cover exactly the indices of the included messages" for
every message list.  (2) Two messages whose tagged texts have 1999
characters pack into one chunk (budget 1999 + 2 + 1999 = 4000), but the
pushed separator is the literal four-character backslash-`n`-backslash-`n`,
so the chunk's text has 4002 characters — "every chunk's text is at most
4000 characters" is also false of the program. -/
theorem claim_C7_counterexample :
    (200 ∈ includedIndices (List.replicate 201 c7Msg) ∧
     (derive_chunks 1 "s" (List.replicate 201 c7Msg)).truncated = true ∧
     ∀ chk ∈ (derive_chunks 1 "s" (List.replicate 201 c7Msg)).chunks,
       ¬(chk.start_message_index ≤ 200 ∧ 200 ≤ chk.end_message_index)) ∧
    (∃ c ∈ (derive_chunks 1 "s2" [c7bMsg, c7bMsg]).chunks,
      CHUNK_TEXT_MAX_CHARS < c.text.length) := by
  obtain ⟨hrun, hends⟩ := c7_run
  refine ⟨⟨?_, ?_, ?_⟩, ?_⟩
  · show 200 ∈ includedPairs (List.enumFrom 0 (List.replicate 201 c7Msg))
    exact c7Mem 201 0 200 (by omega) (by omega)
  · rw [hrun]
  · intro chk hchk
    have hchunks : (derive_chunks 1 "s" (List.replicate 201 c7Msg)).chunks =
        (deriveLoop (List.enumFrom 1 (List.replicate 200 c7Msg))
          ⟨[], false, [(0, c7Text, "user")], c7Text.length⟩).out := by
      rw [hrun]
    rw [hchunks] at hchk
    intro hcov
    exact absurd hcov.2 (Nat.not_le.mpr (hends chk hchk))
  · refine ⟨finalize_chunk 0 [(0, c7bText, "user"), (1, c7bText, "user")], ?_, ?_⟩
    · rw [c7b_run]
      exact List.mem_cons_self _ _
    · have hlen : (joinPieces
          [((0 : Nat), c7bText, "user"), ((1 : Nat), c7bText, "user")]).length = 4002 := by
        rw [joinPieces_cons_cons, joinPieces_singleton]
        show (c7bText ++ '\\' :: 'n' :: '\\' :: 'n' :: c7bText).length = 4002
        rw [List.length_append]
        simp only [List.length_cons, c7b_text_len]
      rw [finalize_chunk_text_eq, hlen]
      norm_num [CHUNK_TEXT_MAX_CHARS]


/-- C7 witness: the amended coverage conjunct instantiated at a concrete
one-message session — message 0 is covered by a chunk. -/
theorem claim_C7_witness :
    ∃ c ∈ (derive_chunks 7 "w" [TraceMessage.user ['h', 'i']]).chunks,
      c.start_message_index ≤ 0 ∧ 0 ≤ c.end_message_index :=
  (claim_C7_amended 7 "w" [TraceMessage.user ['h', 'i']]).2.2.2
    (by decide) 0 (by decide)

end Narrative
